import Mathlib

/-!
Verification of the book-karaoke time-synchronization engine, renderers and
search subsystem, shallowly embedded from the JavaScript sources
(`KaraokePlayer`, `KaraokeRenderer`, `TeleprompterRenderer`, and the search
methods of `BookKaraokeApp`).  Times are embedded as rationals; JS strings as
`List Char` with per-character case folding.  The field `end` of the JS word
and range records is embedded as `stop` (`end` is a Lean keyword).
-/

set_option allowUnsafeReducibility true
attribute [local semireducible] Rat.sub Rat.add Rat.mul Rat.inv Rat.div

namespace BookKaraoke

/-- WordTiming record: `{ word, start, end }` from the timestamp payload. -/
structure WordTiming where
  word : List Char
  start : ℚ
  stop : ℚ
deriving DecidableEq, Repr

/-- ChunkRange record `{ start, end }`, derived per chunk by `setTimestamps`. -/
structure ChunkRange where
  start : ℚ
  stop : ℚ
deriving DecidableEq, Repr

/-- Embeds the per-chunk range computation of `KaraokePlayer.setTimestamps`:
`{0,0}` for an empty chunk, otherwise first word's start and last word's end. -/
def chunkRangeOf : List WordTiming → ChunkRange
  | [] => ⟨0, 0⟩
  | w :: ws => ⟨w.start, ((w :: ws).getLast (List.cons_ne_nil w ws)).stop⟩

/-- Tail used for chunk `i` of `n`: `postRoll` for all but the last chunk,
a fixed `1.0` for the last, as in `KaraokePlayer._updateTime`
(`i < this.chunkRanges.length - 1 ? this.postRoll : 1.0`). -/
def tailFor (n i : ℕ) (postRoll : ℚ) : ℚ :=
  if i < n - 1 then postRoll else 1

/-- Fade weight computed inside the matched branch of the chunk scan of
`KaraokePlayer._updateTime`; `1.0` when `start ≤ t ≤ end`. -/
def fadeFor (preRoll tail : ℚ) (cr : ChunkRange) (t : ℚ) : ℚ :=
  if t < cr.start then max 0 (1 - (cr.start - t) / preRoll)
  else if cr.stop < t then max 0 (1 - (t - cr.stop) / tail)
  else 1

/-- Early-exit forward scan over chunk ranges from `KaraokePlayer._updateTime`;
`i` is the index of the head of the remaining list, `n` the total number of
ranges.  Returns `(newChunkIdx, fadeAlpha)`, `(-1, 1.0)` when no extended
window contains `t`. -/
def findChunkAux (preRoll postRoll : ℚ) (n : ℕ) (t : ℚ) :
    List ChunkRange → ℕ → Int × ℚ
  | [], _ => (-1, 1)
  | cr :: rest, i =>
    if cr.start - preRoll ≤ t ∧ t ≤ cr.stop + tailFor n i postRoll then
      ((i : Int), fadeFor preRoll (tailFor n i postRoll) cr t)
    else
      findChunkAux preRoll postRoll n t rest (i + 1)

/-- Active-chunk selection of `KaraokePlayer._updateTime`. -/
def findActiveChunk (preRoll postRoll t : ℚ) (ranges : List ChunkRange) : Int × ℚ :=
  findChunkAux preRoll postRoll ranges.length t ranges 0

/-- Forward scan for the first word `w` with `start_w ≤ t < end_w`
(`KaraokePlayer._updateTime`, word loop). -/
def scanWord (t : ℚ) : List WordTiming → ℕ → Int
  | [], _ => -1
  | wt :: rest, w =>
    if wt.start ≤ t ∧ t < wt.stop then (w : Int)
    else scanWord t rest (w + 1)

/-- Active-word computation for a chunk: first word containing `t`, else the
last word once `t` is at or past the last word's end, else `-1`. -/
def findWordIdx (t : ℚ) (chunk : List WordTiming) : Int :=
  let idx := scanWord t chunk 0
  match chunk with
  | [] => idx
  | w :: ws =>
    if idx = -1 ∧ ((w :: ws).getLast (List.cons_ne_nil w ws)).stop ≤ t then
      ((w :: ws).length - 1 : ℕ)
    else idx

/-- Events dispatched by `KaraokePlayer` (the subset the claims concern). -/
inductive KEvent where
  | chunkchange (chunkIndex previousChunkIndex : Int) (fadeAlpha : ℚ)
  | wordchange (wordIndex chunkIndex : Int)
  | timeupdate (time progress : ℚ) (chunkIndex wordIndex : Int) (fadeAlpha : ℚ)
  | seekEvt (time : ℚ)
  | timestampsloaded
deriving DecidableEq, Repr

/-- Discriminator for `chunkchange` events. -/
def KEvent.isChunkChange : KEvent → Bool
  | .chunkchange _ _ _ => true
  | _ => false

/-- Discriminator for `wordchange` events. -/
def KEvent.isWordChange : KEvent → Bool
  | .wordchange _ _ => true
  | _ => false

/-- Mutable state of a `KaraokePlayer` with audio attached, as read and
written by `_updateTime`, `seek` and `setTimestamps`.  `currentTime` embeds
`audio.currentTime`. -/
@[ext]
structure PlayerState where
  chunks : List (List WordTiming)
  chunkRanges : List ChunkRange
  duration : ℚ
  currentTime : ℚ
  activeChunkIndex : Int
  activeWordIndex : Int
  preRoll : ℚ
  postRoll : ℚ
deriving DecidableEq, Repr

/-- Embeds `KaraokePlayer._updateTime`: computes the new chunk/word indices
and fade from `currentTime`, fires `chunkchange` / `wordchange` only on
change, and always fires `timeupdate`.  Returns the new state and the
events dispatched, in dispatch order. -/
def updateTime (s : PlayerState) : PlayerState × List KEvent :=
  let t := s.currentTime
  let progress := if 0 < s.duration then t / s.duration else 0
  let res := findActiveChunk s.preRoll s.postRoll t s.chunkRanges
  let newChunkIdx := res.1
  let fadeAlpha := res.2
  let newWordIdx :=
    if 0 ≤ newChunkIdx then findWordIdx t (s.chunks.getD newChunkIdx.toNat [])
    else -1
  let p1 :=
    if newChunkIdx ≠ s.activeChunkIndex then
      ({ s with activeChunkIndex := newChunkIdx },
        [KEvent.chunkchange newChunkIdx s.activeChunkIndex fadeAlpha])
    else (s, [])
  let p2 :=
    if newWordIdx ≠ p1.1.activeWordIndex then
      ({ p1.1 with activeWordIndex := newWordIdx },
        p1.2 ++ [KEvent.wordchange newWordIdx newChunkIdx])
    else p1
  (p2.1, p2.2 ++ [KEvent.timeupdate t progress newChunkIdx newWordIdx fadeAlpha])

/-- Embeds `KaraokePlayer.seek`: clamps the requested time to
`[0, duration]`, writes the play position, recomputes state immediately via
`_updateTime`, then emits `seek`. -/
def seek (s : PlayerState) (time : ℚ) : PlayerState × List KEvent :=
  let ct := max 0 (min time s.duration)
  let s1 := { s with currentTime := ct }
  let r := updateTime s1
  (r.1, r.2 ++ [KEvent.seekEvt r.1.currentTime])

/-- Embeds `KaraokePlayer.setTimestamps`: replaces the chunk data and derives
the per-chunk ranges. -/
def setTimestamps (s : PlayerState) (chunks : List (List WordTiming)) :
    PlayerState × List KEvent :=
  ({ s with chunks := chunks, chunkRanges := chunks.map chunkRangeOf },
    [KEvent.timestampsloaded])

/-! Search subsystem (`BookKaraokeApp._runSearch`, `_searchNav`,
`_goToSearchMatch`, `_highlightSearchInChunk`, `_clearSearchHighlights`).
Queries and words are `List Char`; the DOM match-count label and the
seek/show-chunk commands issued to the player and renderer are outside this
state. -/

/-- Whitespace test used by the embedding of `String.prototype.trim`. -/
def wsChar (c : Char) : Bool :=
  c == ' ' || c == '\t' || c == '\n' || c == '\r'

/-- Embeds `query.trim()`: strips whitespace from both ends. -/
def jsTrim (l : List Char) : List Char :=
  ((l.dropWhile wsChar).reverse.dropWhile wsChar).reverse

/-- Embeds `toLowerCase()` (per-character case folding). -/
def toLowerStr (l : List Char) : List Char :=
  l.map Char.toLower

/-- Tests whether the first list occurs at the head of the second. -/
def leadMatch : List Char → List Char → Bool
  | [], _ => true
  | _ :: _, [] => false
  | a :: as, b :: bs => a == b && leadMatch as bs

/-- Embeds `s.includes(q)`: `q` occurs somewhere in `s`. -/
def hasSub (q : List Char) : List Char → Bool
  | [] => q.isEmpty
  | c :: rest => leadMatch q (c :: rest) || hasSub q rest

/-- SearchMatch record `{chunkIndex, wordIndex, start}` pushed by
`_runSearch`. -/
structure SearchMatch where
  chunkIndex : ℕ
  wordIndex : ℕ
  start : ℚ
deriving DecidableEq, Repr

/-- Inner word loop of `_runSearch` over one chunk, `wi` the index of the
head word. -/
def collectWords (q : List Char) (ci : ℕ) : List WordTiming → ℕ → List SearchMatch
  | [], _ => []
  | w :: ws, wi =>
    (if hasSub q (toLowerStr w.word) then [⟨ci, wi, w.start⟩] else []) ++
      collectWords q ci ws (wi + 1)

/-- Outer chunk loop of `_runSearch`, `ci` the index of the head chunk. -/
def collectMatches (q : List Char) : List (List WordTiming) → ℕ → List SearchMatch
  | [], _ => []
  | c :: cs, ci => collectWords q ci c 0 ++ collectMatches q cs (ci + 1)

/-- Search state of `BookKaraokeApp`: the match list, the current-match
cursor, and the set of word positions currently carrying a search-highlight
class. -/
structure SearchState where
  searchMatches : List SearchMatch
  searchCurrent : Int
  highlights : List (ℕ × ℕ)
deriving DecidableEq, Repr

/-- Embeds `_clearSearchHighlights`: removes every search-highlight class. -/
def clearSearchHighlights (st : SearchState) : SearchState :=
  { st with highlights := [] }

/-- Embeds `_highlightSearchInChunk`: clears highlights, then highlights
every match located in the shown chunk.  The renderer shows the whole chunk,
so the `wordIndex < spans.length` guard of the source always holds here. -/
def highlightSearchInChunk (st : SearchState) (chunkIndex : ℕ) : SearchState :=
  let st1 := clearSearchHighlights st
  { st1 with
    highlights :=
      (st1.searchMatches.filter (fun m => m.chunkIndex == chunkIndex)).map
        (fun m => (m.chunkIndex, m.wordIndex)) }

/-- Embeds `_goToSearchMatch` restricted to search state: the `seek` and
`showChunk` commands it issues target the player and renderer, not this
state; the highlighting effect remains. -/
def goToSearchMatch (st : SearchState) (idx : ℕ) : SearchState :=
  match st.searchMatches.get? idx with
  | none => st
  | some m => highlightSearchInChunk st m.chunkIndex

/-- Embeds `_runSearch`: clears highlights and match state, trims and
case-folds the query, returns early on a blank query, else collects matches
in `(chunkIndex, wordIndex)` order and auto-navigates to the first. -/
def runSearch (chunks : List (List WordTiming)) (query : List Char)
    (st : SearchState) : SearchState :=
  let st1 := { clearSearchHighlights st with searchMatches := [], searchCurrent := -1 }
  let q := toLowerStr (jsTrim query)
  if q = [] then st1
  else
    let ms := collectMatches q chunks 0
    let st2 := { st1 with searchMatches := ms }
    if 0 < ms.length then goToSearchMatch { st2 with searchCurrent := 0 } 0
    else st2

/-- Embeds `_searchNav`: no-op without matches, else advances the cursor by
`direction` with wrap-around (JS `%` is truncated remainder, `Int.tmod`). -/
def searchNav (st : SearchState) (direction : Int) : SearchState :=
  if st.searchMatches.length = 0 then st
  else
    let cur :=
      Int.tmod (st.searchCurrent + direction + st.searchMatches.length)
        st.searchMatches.length
    goToSearchMatch { st with searchCurrent := cur } cur.toNat

/-! Continuous (teleprompter) renderer: `TeleprompterRenderer.build` and
`TeleprompterRenderer.updateTime`.  Each word span's highlighting classes are
embedded as three Booleans; scrolling and chapter titles are outside the
claims. -/

/-- Presence of the word-state classes on one span. -/
structure SpanTags where
  spoken : Bool
  active : Bool
  upcoming : Bool
deriving DecidableEq, Repr

/-- Class set `word-upcoming`. -/
def upcomingTag : SpanTags := ⟨false, false, true⟩

/-- Class set `word-spoken`. -/
def spokenTag : SpanTags := ⟨true, false, false⟩

/-- Class set `word-active`. -/
def activeTag : SpanTags := ⟨false, true, false⟩

/-- Tag written by the retag loop for position `i` against flat index
`flat`. -/
def tagFor (i flat : ℕ) : SpanTags :=
  if i < flat then spokenTag else if i = flat then activeTag else upcomingTag

/-- Starting flat index of each chunk (`_chunkWordOffsets`), `acc` the flat
index of the first word of the head chunk. -/
def offsetsOf : List (List WordTiming) → ℕ → List ℕ
  | [], _ => []
  | c :: cs, acc => acc :: offsetsOf cs (acc + c.length)

/-- Total number of word spans rendered by `build`. -/
def totalWords (chunks : List (List WordTiming)) : ℕ :=
  (chunks.map List.length).sum

/-- Teleprompter renderer state (`_chunkWordOffsets`, the word-state classes
of `_allSpans`, `_prevFlatIndex`, `_built`). -/
structure TelState where
  chunkWordOffsets : List ℕ
  tags : List SpanTags
  prevFlatIndex : Int
  built : Bool
deriving DecidableEq, Repr

/-- Embeds `TeleprompterRenderer.build`: every span starts `word-upcoming`,
`_prevFlatIndex` is reset. -/
def telBuild (chunks : List (List WordTiming)) : TelState :=
  { chunkWordOffsets := offsetsOf chunks 0,
    tags := List.replicate (totalWords chunks) upcomingTag,
    prevFlatIndex := -1,
    built := true }

/-- Retag loop of `updateTime`: rewrites positions in `[lo, hi]` (capped at
the span count) to their state relative to `flat`; `i` is the position of the
head element. -/
def setRange (lo hi flat : ℕ) : List SpanTags → ℕ → List SpanTags
  | [], _ => []
  | tg :: rest, i =>
    (if lo ≤ i ∧ i ≤ hi then tagFor i flat else tg) :: setRange lo hi flat rest (i + 1)

/-- Backfill loop of `updateTime`: marks every position below `flat` as
spoken. -/
def setBelow (flat : ℕ) : List SpanTags → ℕ → List SpanTags
  | [], _ => []
  | tg :: rest, i =>
    (if i < flat then spokenTag else tg) :: setBelow flat rest (i + 1)

/-- Embeds `TeleprompterRenderer.updateTime` (scrolling elided): early
returns on unbuilt state, negative indices, out-of-range chunk index or
unchanged flat index; otherwise retags `[lo, hi]` and, when the previous flat
index was undefined, backfills everything below the new flat index. -/
def telUpdateTime (st : TelState) (_time : ℚ) (chunkIndex wordIndex : Int)
    (_fadeAlpha : ℚ) : TelState :=
  if ¬ st.built ∨ chunkIndex < 0 ∨ wordIndex < 0 then st
  else if (st.chunkWordOffsets.length : Int) ≤ chunkIndex then st
  else
    let flat := st.chunkWordOffsets.getD chunkIndex.toNat 0 + wordIndex.toNat
    if (flat : Int) = st.prevFlatIndex then st
    else
      let base := if st.prevFlatIndex < 0 then 0 else st.prevFlatIndex.toNat
      let lo := min base flat
      let hi := max base flat
      let tags1 := setRange lo hi flat st.tags 0
      let tags2 := if st.prevFlatIndex < 0 then setBelow flat tags1 0 else tags1
      { st with tags := tags2, prevFlatIndex := (flat : Int) }

/-- One tick call `(time, chunkIndex, wordIndex, fadeAlpha)` delivered to the
teleprompter renderer. -/
def applyCalls (st : TelState) : List (ℚ × Int × Int × ℚ) → TelState
  | [] => st
  | c :: cs => applyCalls (telUpdateTime st c.1 c.2.1 c.2.2.1 c.2.2.2) cs

/-- A call with valid indices: the chunk index addresses a chunk and the word
index a word of that chunk. -/
def validCall (chunks : List (List WordTiming)) (ci wi : Int) : Prop :=
  0 ≤ ci ∧ ci.toNat < chunks.length ∧ 0 ≤ wi ∧
    wi.toNat < (chunks.getD ci.toNat []).length

instance (chunks : List (List WordTiming)) (ci wi : Int) :
    Decidable (validCall chunks ci wi) :=
  inferInstanceAs (Decidable (_ ∧ _ ∧ _ ∧ _))

/-- Consistent tagging: the stored flat index is defined and in range, and
every span holds exactly the tag determined by its position relative to it. -/
def telConsistent (st : TelState) : Prop :=
  0 ≤ st.prevFlatIndex ∧ st.prevFlatIndex.toNat < st.tags.length ∧
    ∀ i, i < st.tags.length → st.tags.getD i upcomingTag = tagFor i st.prevFlatIndex.toNat

instance (st : TelState) : Decidable (telConsistent st) :=
  inferInstanceAs (Decidable (_ ∧ _ ∧ _))

/-- Invariant tying a teleprompter state to its chunk data: built, offsets
and span count as produced by `build`, and the tags either still all
`upcoming` (no update yet) or consistent with the stored flat index. -/
def telGood (chunks : List (List WordTiming)) (st : TelState) : Prop :=
  st.built = true ∧ st.chunkWordOffsets = offsetsOf chunks 0 ∧
    st.tags.length = totalWords chunks ∧
    ((st.prevFlatIndex = -1 ∧
        ∀ i, i < st.tags.length → st.tags.getD i upcomingTag = upcomingTag) ∨
      telConsistent st)

/-! Paged renderer (`KaraokeRenderer.showChunk`, `_renderChunk`,
`_transitionChunk`, `_clear`).  `wordSpans` is embedded as the word data of
the rendered spans; `transitionChunk` models the synchronous prefix of
`_transitionChunk` (the fade-out/fade-in callbacks that later render
`pendingChunk` and clear the flag are asynchronous). -/

/-- Paged renderer state. -/
structure RState where
  chunks : List (List WordTiming)
  currentChunkIndex : Int
  wordSpans : List WordTiming
  containerEmpty : Bool
  transitioning : Bool
  pendingChunk : Option (List WordTiming)
deriving DecidableEq, Repr

/-- Embeds `_renderChunk`: empties the container and span list, then fills
them from the chunk (nothing is appended for an empty chunk). -/
def renderChunk (s : RState) (chunk : List WordTiming) : RState :=
  { s with wordSpans := chunk, containerEmpty := chunk.isEmpty }

/-- Embeds the synchronous prefix of `_transitionChunk`: ignored while a
transition is in progress, else raises the guard flag and starts the fade
with the chunk captured for the fade-out callback. -/
def transitionChunk (s : RState) (chunk : List WordTiming) : RState :=
  if s.transitioning then s
  else { s with transitioning := true, pendingChunk := some chunk }

/-- Embeds `_clear`. -/
def clearR (s : RState) : RState :=
  { s with containerEmpty := true, wordSpans := [], currentChunkIndex := -1 }

/-- Embeds `KaraokeRenderer.showChunk`. -/
def showChunk (s : RState) (chunkIndex : Int) (animate : Bool) : RState :=
  if chunkIndex = s.currentChunkIndex then s
  else if chunkIndex < 0 ∨ (s.chunks.length : Int) ≤ chunkIndex then clearR s
  else
    let chunk := s.chunks.getD chunkIndex.toNat []
    let prevIndex := s.currentChunkIndex
    let s1 := { s with currentChunkIndex := chunkIndex }
    if animate ∧ 0 ≤ prevIndex then transitionChunk s1 chunk else renderChunk s1 chunk

/-! Concrete sample data used by witnesses and counterexamples. -/

/-- Sample chunk: two contiguous words covering `[0, 1]`. -/
def sampleChunk : List WordTiming :=
  [⟨['h', 'i'], 0, 1/2⟩, ⟨['t', 'h', 'e', 'r', 'e'], 1/2, 1⟩]

/-- A chunk with a timing gap between its two words. -/
def gapChunk : List WordTiming :=
  [⟨['a'], 0, 1/2⟩, ⟨['b'], 1, 3/2⟩]

/-- Sample player state over `sampleChunk` at time `t`. -/
def sampleState (t : ℚ) : PlayerState :=
  { chunks := [sampleChunk],
    chunkRanges := [sampleChunk].map chunkRangeOf,
    duration := 2,
    currentTime := t,
    activeChunkIndex := -1,
    activeWordIndex := -1,
    preRoll := 3/10,
    postRoll := 3/10 }

/-- Sample player state over `gapChunk` at time `t`. -/
def gapState (t : ℚ) : PlayerState :=
  { chunks := [gapChunk],
    chunkRanges := [gapChunk].map chunkRangeOf,
    duration := 3,
    currentTime := t,
    activeChunkIndex := -1,
    activeWordIndex := -1,
    preRoll := 3/10,
    postRoll := 3/10 }

/-- Player state holding a single empty chunk, at time `t`. -/
def emptyChunkState (t : ℚ) : PlayerState :=
  { chunks := [[]],
    chunkRanges := [([] : List WordTiming)].map chunkRangeOf,
    duration := 1,
    currentTime := t,
    activeChunkIndex := -1,
    activeWordIndex := -1,
    preRoll := 3/10,
    postRoll := 3/10 }

/-- Sample teleprompter chunk data: two chunks with three words in total. -/
def telChunks : List (List WordTiming) :=
  [[⟨['a'], 0, 1⟩, ⟨['b'], 1, 2⟩], [⟨['c'], 2, 3⟩]]

/-- Sample tick sequence: forward to flat index 1, back to 0, forward past it
to flat index 2. -/
def telCalls : List (ℚ × Int × Int × ℚ) :=
  [(1, 0, 1, 1), (0, 0, 0, 1), (2, 1, 0, 1)]

/-- Initial paged-renderer state over two sample chunks. -/
def sampleR : RState :=
  { chunks := [sampleChunk, gapChunk],
    currentChunkIndex := -1,
    wordSpans := [],
    containerEmpty := true,
    transitioning := false,
    pendingChunk := none }

/-- Extended window of chunk `i` of `n`: `[start_i - preRoll, end_i + tail_i]`
(spec §4.1). -/
def inExtWindow (preRoll postRoll : ℚ) (n i : ℕ) (cr : ChunkRange) (t : ℚ) : Prop :=
  cr.start - preRoll ≤ t ∧ t ≤ cr.stop + tailFor n i postRoll

instance (preRoll postRoll : ℚ) (n i : ℕ) (cr : ChunkRange) (t : ℚ) :
    Decidable (inExtWindow preRoll postRoll n i cr t) :=
  inferInstanceAs (Decidable (_ ∧ _))

/-- Well-formed timing data (spec §3): within a chunk `start ≤ end` for every
word and the timing sequence is non-decreasing across consecutive words. -/
def wellFormedChunk (c : List WordTiming) : Prop :=
  (∀ w ∈ c, w.start ≤ w.stop) ∧ c.Chain' (fun a b => a.stop ≤ b.start)

/-- Gap-free word coverage: each word starts no later than the previous word
ends. -/
def contiguousChunk (c : List WordTiming) : Prop :=
  c.Chain' (fun a b => b.start ≤ a.stop)

/-- Boolean check for `wellFormedChunk`, kept kernel-reducible. -/
def wellFormedB : List WordTiming → Bool
  | [] => true
  | [a] => decide (a.start ≤ a.stop)
  | a :: b :: rest =>
    decide (a.start ≤ a.stop) && decide (a.stop ≤ b.start) && wellFormedB (b :: rest)

/-- Boolean check for `contiguousChunk`, kept kernel-reducible. -/
def contiguousB : List WordTiming → Bool
  | [] => true
  | [_] => true
  | a :: b :: rest => decide (b.start ≤ a.stop) && contiguousB (b :: rest)

lemma wellFormedB_iff : ∀ c : List WordTiming, wellFormedB c = true ↔ wellFormedChunk c := by
  intro c
  induction c with
  | nil => simp [wellFormedB, wellFormedChunk]
  | cons a tail ih =>
    cases tail with
    | nil => simp [wellFormedB, wellFormedChunk]
    | cons b rest =>
      unfold wellFormedChunk at ih ⊢
      simp only [wellFormedB, Bool.and_eq_true, decide_eq_true_eq, List.chain'_cons,
        List.forall_mem_cons] at ih ⊢
      constructor
      · rintro ⟨⟨h1, h2⟩, h3⟩
        have := ih.mp h3
        exact ⟨⟨h1, this.1⟩, h2, this.2⟩
      · rintro ⟨⟨h1, h4⟩, h2, h5⟩
        exact ⟨⟨h1, h2⟩, ih.mpr ⟨h4, h5⟩⟩

lemma contiguousB_iff : ∀ c : List WordTiming, contiguousB c = true ↔ contiguousChunk c := by
  intro c
  induction c with
  | nil => simp [contiguousB, contiguousChunk]
  | cons a tail ih =>
    cases tail with
    | nil => simp [contiguousB, contiguousChunk]
    | cons b rest =>
      unfold contiguousChunk at ih ⊢
      simp only [contiguousB, Bool.and_eq_true, decide_eq_true_eq, List.chain'_cons] at ih ⊢
      exact ⟨fun ⟨h1, h2⟩ => ⟨h1, ih.mp h2⟩, fun ⟨h1, h2⟩ => ⟨h1, ih.mpr h2⟩⟩

instance (c : List WordTiming) : Decidable (wellFormedChunk c) :=
  decidable_of_iff (wellFormedB c = true) (wellFormedB_iff c)

instance (c : List WordTiming) : Decidable (contiguousChunk c) :=
  decidable_of_iff (contiguousB c = true) (contiguousB_iff c)

/-- Unfolding equation for the cons case of the chunk scan. -/
lemma findChunkAux_cons (pre post : ℚ) (n : ℕ) (t : ℚ) (cr : ChunkRange)
    (rest : List ChunkRange) (i : ℕ) :
    findChunkAux pre post n t (cr :: rest) i =
      if cr.start - pre ≤ t ∧ t ≤ cr.stop + tailFor n i post then
        ((i : Int), fadeFor pre (tailFor n i post) cr t)
      else findChunkAux pre post n t rest (i + 1) :=
  rfl

/-- Complete characterization of the early-exit chunk scan: either no window
matched (result `(-1, 1)`), or the result is the first matching index with
its fade. -/
lemma findChunkAux_spec (pre post : ℚ) (n : ℕ) (t : ℚ) :
    ∀ (l : List ChunkRange) (i : ℕ),
      (findChunkAux pre post n t l i = (-1, 1) ∧
        ∀ k, (hk : k < l.length) → ¬ inExtWindow pre post n (i + k) (l.get ⟨k, hk⟩) t)
      ∨ (∃ k, ∃ hk : k < l.length,
          findChunkAux pre post n t l i =
            (((i + k : ℕ) : Int), fadeFor pre (tailFor n (i + k) post) (l.get ⟨k, hk⟩) t) ∧
          inExtWindow pre post n (i + k) (l.get ⟨k, hk⟩) t ∧
          ∀ m, (hm : m < k) → ¬ inExtWindow pre post n (i + m) (l.get ⟨m, hm.trans hk⟩) t) := by
  intro l
  induction l with
  | nil =>
    intro i
    exact Or.inl ⟨rfl, fun k hk => absurd hk (Nat.not_lt_zero k)⟩
  | cons cr rest ih =>
    intro i
    by_cases h : cr.start - pre ≤ t ∧ t ≤ cr.stop + tailFor n i post
    · refine Or.inr ⟨0, Nat.succ_pos rest.length, ?_, ?_, ?_⟩
      · rw [findChunkAux_cons, if_pos h]
        simp
      · rw [Nat.add_zero]
        exact h
      · intro m hm
        exact absurd hm (Nat.not_lt_zero m)
    · have hstep : findChunkAux pre post n t (cr :: rest) i =
          findChunkAux pre post n t rest (i + 1) := by
        rw [findChunkAux_cons, if_neg h]
      rcases ih (i + 1) with ⟨heq, hnone⟩ | ⟨k, hk, heq, hwin, hmin⟩
      · refine Or.inl ⟨hstep.trans heq, ?_⟩
        intro k hk
        cases k with
        | zero =>
          rw [Nat.add_zero]
          exact h
        | succ m =>
          have hm : m < rest.length := Nat.lt_of_succ_lt_succ hk
          have hx := hnone m hm
          have hidx : i + (m + 1) = i + 1 + m := by omega
          rw [hidx, List.get_cons_succ]
          exact hx
      · refine Or.inr ⟨k + 1, Nat.succ_lt_succ hk, ?_, ?_, ?_⟩
        · have hidx : i + (k + 1) = i + 1 + k := by omega
          rw [hstep, heq, hidx, List.get_cons_succ]
        · have hidx : i + (k + 1) = i + 1 + k := by omega
          rw [hidx, List.get_cons_succ]
          exact hwin
        · intro m hm
          cases m with
          | zero =>
            rw [Nat.add_zero]
            exact h
          | succ m' =>
            have hm' : m' < k := Nat.lt_of_succ_lt_succ hm
            have hx := hmin m' hm'
            have hidx : i + (m' + 1) = i + 1 + m' := by omega
            rw [hidx, List.get_cons_succ]
            exact hx

/-- When no extended window contains `t`, the scan yields `(-1, 1)`. -/
lemma findActiveChunk_none (pre post t : ℚ) (ranges : List ChunkRange)
    (h : ∀ k, (hk : k < ranges.length) →
      ¬ inExtWindow pre post ranges.length k (ranges.get ⟨k, hk⟩) t) :
    findActiveChunk pre post t ranges = (-1, 1) := by
  rcases findChunkAux_spec pre post ranges.length t ranges 0 with ⟨heq, _⟩ |
    ⟨k, hk, _, hwin, _⟩
  · exact heq
  · exact absurd (by simpa using hwin) (h k hk)

/-- When some extended window contains `t`, the scan yields the least matching
index together with that chunk's fade. -/
lemma findActiveChunk_found (pre post t : ℚ) (ranges : List ChunkRange)
    (k : ℕ) (hk : k < ranges.length)
    (hwin : inExtWindow pre post ranges.length k (ranges.get ⟨k, hk⟩) t)
    (hmin : ∀ m, (hm : m < k) →
      ¬ inExtWindow pre post ranges.length m (ranges.get ⟨m, hm.trans hk⟩) t) :
    findActiveChunk pre post t ranges =
      ((k : Int), fadeFor pre (tailFor ranges.length k post) (ranges.get ⟨k, hk⟩) t) := by
  rcases findChunkAux_spec pre post ranges.length t ranges 0 with ⟨_, hnone⟩ |
    ⟨k', hk', heq, hwin', hmin'⟩
  · exact absurd (by simpa using hwin) (by simpa using hnone k hk)
  · have hkk : k = k' := by
      rcases Nat.lt_trichotomy k k' with hlt | heqk | hgt
      · exact absurd (by simpa using hwin) (by simpa using hmin' k hlt)
      · exact heqk
      · exact absurd (by simpa using hwin') (by simpa using hmin k' hgt)
    subst hkk
    simpa using heq

/-- The scan result index is either `-1` or a matching in-range index. -/
lemma findActiveChunk_cases (pre post t : ℚ) (ranges : List ChunkRange) :
    (findActiveChunk pre post t ranges).1 = -1 ∨
    ∃ k, ∃ hk : k < ranges.length,
      (findActiveChunk pre post t ranges).1 = (k : Int) ∧
      inExtWindow pre post ranges.length k (ranges.get ⟨k, hk⟩) t ∧
      (findActiveChunk pre post t ranges).2 =
        fadeFor pre (tailFor ranges.length k post) (ranges.get ⟨k, hk⟩) t := by
  rcases findChunkAux_spec pre post ranges.length t ranges 0 with ⟨heq, _⟩ |
    ⟨k, hk, heq, hwin, _⟩
  · left
    unfold findActiveChunk
    rw [heq]
  · right
    refine ⟨k, hk, ?_, by simpa using hwin, ?_⟩
    · unfold findActiveChunk
      rw [heq]
      simp
    · unfold findActiveChunk
      rw [heq]
      simp

/-- The state after a tick stores exactly the computed chunk and word index. -/
lemma updateTime_state (s : PlayerState) :
    (updateTime s).1 =
      { s with
        activeChunkIndex := (findActiveChunk s.preRoll s.postRoll s.currentTime s.chunkRanges).1,
        activeWordIndex :=
          if 0 ≤ (findActiveChunk s.preRoll s.postRoll s.currentTime s.chunkRanges).1 then
            findWordIdx s.currentTime
              (s.chunks.getD
                (findActiveChunk s.preRoll s.postRoll s.currentTime s.chunkRanges).1.toNat [])
          else -1 } := by
  unfold updateTime
  dsimp only
  split_ifs <;> ext <;> simp_all

/-- The events of a tick: `chunkchange` / `wordchange` exactly on change,
then the unconditional `timeupdate`. -/
lemma updateTime_events (s : PlayerState) :
    (updateTime s).2 =
      (if (findActiveChunk s.preRoll s.postRoll s.currentTime s.chunkRanges).1 ≠
          s.activeChunkIndex then
        [KEvent.chunkchange (findActiveChunk s.preRoll s.postRoll s.currentTime s.chunkRanges).1
          s.activeChunkIndex (findActiveChunk s.preRoll s.postRoll s.currentTime s.chunkRanges).2]
      else []) ++
      (if (if 0 ≤ (findActiveChunk s.preRoll s.postRoll s.currentTime s.chunkRanges).1 then
            findWordIdx s.currentTime
              (s.chunks.getD
                (findActiveChunk s.preRoll s.postRoll s.currentTime s.chunkRanges).1.toNat [])
          else -1) ≠ s.activeWordIndex then
        [KEvent.wordchange
          (if 0 ≤ (findActiveChunk s.preRoll s.postRoll s.currentTime s.chunkRanges).1 then
            findWordIdx s.currentTime
              (s.chunks.getD
                (findActiveChunk s.preRoll s.postRoll s.currentTime s.chunkRanges).1.toNat [])
          else -1)
          (findActiveChunk s.preRoll s.postRoll s.currentTime s.chunkRanges).1]
      else []) ++
      [KEvent.timeupdate s.currentTime
        (if 0 < s.duration then s.currentTime / s.duration else 0)
        (findActiveChunk s.preRoll s.postRoll s.currentTime s.chunkRanges).1
        (if 0 ≤ (findActiveChunk s.preRoll s.postRoll s.currentTime s.chunkRanges).1 then
          findWordIdx s.currentTime
            (s.chunks.getD
              (findActiveChunk s.preRoll s.postRoll s.currentTime s.chunkRanges).1.toNat [])
        else -1)
        (findActiveChunk s.preRoll s.postRoll s.currentTime s.chunkRanges).2] := by
  unfold updateTime
  dsimp only
  split_ifs with h1 h2 h3 <;> simp_all

/-- Unfolding equation for the cons case of the word scan. -/
lemma scanWord_cons (t : ℚ) (wt : WordTiming) (rest : List WordTiming) (w : ℕ) :
    scanWord t (wt :: rest) w =
      if wt.start ≤ t ∧ t < wt.stop then (w : Int) else scanWord t rest (w + 1) :=
  rfl

/-- Complete characterization of the word scan: either no word contains `t`
(result `-1`), or the result is the first containing index. -/
lemma scanWord_spec (t : ℚ) :
    ∀ (l : List WordTiming) (w : ℕ),
      (scanWord t l w = -1 ∧
        ∀ k, (hk : k < l.length) →
          ¬ ((l.get ⟨k, hk⟩).start ≤ t ∧ t < (l.get ⟨k, hk⟩).stop))
      ∨ (∃ k, ∃ hk : k < l.length,
          scanWord t l w = ((w + k : ℕ) : Int) ∧
          ((l.get ⟨k, hk⟩).start ≤ t ∧ t < (l.get ⟨k, hk⟩).stop) ∧
          ∀ m, (hm : m < k) →
            ¬ ((l.get ⟨m, hm.trans hk⟩).start ≤ t ∧ t < (l.get ⟨m, hm.trans hk⟩).stop)) := by
  intro l
  induction l with
  | nil =>
    intro w
    exact Or.inl ⟨rfl, fun k hk => absurd hk (Nat.not_lt_zero k)⟩
  | cons wt rest ih =>
    intro w
    by_cases h : wt.start ≤ t ∧ t < wt.stop
    · refine Or.inr ⟨0, Nat.succ_pos rest.length, ?_, ?_, ?_⟩
      · rw [scanWord_cons, if_pos h]
        simp
      · exact h
      · intro m hm
        exact absurd hm (Nat.not_lt_zero m)
    · have hstep : scanWord t (wt :: rest) w = scanWord t rest (w + 1) := by
        rw [scanWord_cons, if_neg h]
      rcases ih (w + 1) with ⟨heq, hnone⟩ | ⟨k, hk, heq, hwin, hmin⟩
      · refine Or.inl ⟨hstep.trans heq, ?_⟩
        intro k hk
        cases k with
        | zero => exact h
        | succ m =>
          have hm : m < rest.length := Nat.lt_of_succ_lt_succ hk
          have hx := hnone m hm
          rw [List.get_cons_succ]
          exact hx
      · refine Or.inr ⟨k + 1, Nat.succ_lt_succ hk, ?_, ?_, ?_⟩
        · have hidx : w + (k + 1) = w + 1 + k := by omega
          rw [hstep, heq, hidx]
        · rw [List.get_cons_succ]
          exact hwin
        · intro m hm
          cases m with
          | zero => exact h
          | succ m' =>
            have hm' : m' < k := Nat.lt_of_succ_lt_succ hm
            have hx := hmin m' hm'
            rw [List.get_cons_succ]
            exact hx

/-- If some word matches, the word scan returns the first matching index. -/
lemma scanWord_first (t : ℚ) (l : List WordTiming) (k : ℕ) (hk : k < l.length)
    (hmatch : (l.get ⟨k, hk⟩).start ≤ t ∧ t < (l.get ⟨k, hk⟩).stop)
    (hmin : ∀ m, (hm : m < k) →
      ¬ ((l.get ⟨m, hm.trans hk⟩).start ≤ t ∧ t < (l.get ⟨m, hm.trans hk⟩).stop)) :
    scanWord t l 0 = (k : Int) := by
  rcases scanWord_spec t l 0 with ⟨_, hnone⟩ | ⟨k', hk', heq, hwin', hmin'⟩
  · exact absurd hmatch (hnone k hk)
  · have hkk : k = k' := by
      rcases Nat.lt_trichotomy k k' with hlt | heqk | hgt
      · exact absurd hmatch (hmin' k hlt)
      · exact heqk
      · exact absurd hwin' (hmin k' hgt)
    subst hkk
    simpa using heq

/-- If no word contains `t`, the word scan returns `-1`. -/
lemma scanWord_none (t : ℚ) (l : List WordTiming)
    (h : ∀ k, (hk : k < l.length) →
      ¬ ((l.get ⟨k, hk⟩).start ≤ t ∧ t < (l.get ⟨k, hk⟩).stop)) :
    scanWord t l 0 = -1 := by
  rcases scanWord_spec t l 0 with ⟨heq, _⟩ | ⟨k, hk, _, hwin, _⟩
  · exact heq
  · exact absurd hwin (h k hk)

/-- When the scan succeeds, `findWordIdx` returns the scan result. -/
lemma findWordIdx_of_scan (t : ℚ) (chunk : List WordTiming)
    (h : scanWord t chunk 0 ≠ -1) :
    findWordIdx t chunk = scanWord t chunk 0 := by
  unfold findWordIdx
  cases chunk with
  | nil => rfl
  | cons w ws =>
    dsimp only
    rw [if_neg]
    intro hc
    exact h hc.1

/-- In a well-formed chunk each word ends no later than the last word. -/
lemma wf_stop_le_last :
    ∀ (c : List WordTiming) (hne : c ≠ []), wellFormedChunk c →
      ∀ k, (hk : k < c.length) → (c.get ⟨k, hk⟩).stop ≤ (c.getLast hne).stop := by
  intro c
  induction c with
  | nil => intro hne; exact absurd rfl hne
  | cons a tail ih =>
    intro hne hwf k hk
    cases tail with
    | nil =>
      have hk0 : k = 0 := Nat.lt_one_iff.mp hk
      subst hk0
      exact le_refl _
    | cons b rest =>
      have hchain := List.chain'_cons.mp hwf.2
      have hwf' : wellFormedChunk (b :: rest) :=
        ⟨fun w hw => hwf.1 w (List.mem_cons_of_mem a hw), hchain.2⟩
      have hlast : (a :: b :: rest).getLast hne =
          (b :: rest).getLast (List.cons_ne_nil b rest) :=
        List.getLast_cons (List.cons_ne_nil b rest)
      cases k with
      | zero =>
        have h1 : a.stop ≤ b.start := hchain.1
        have h2 : b.start ≤ b.stop := hwf.1 b (by simp)
        have h3 := ih (List.cons_ne_nil b rest) hwf' 0 (Nat.succ_pos rest.length)
        rw [hlast]
        exact le_trans h1 (le_trans h2 (by simpa using h3))
      | succ m =>
        have hm : m < (b :: rest).length := Nat.lt_of_succ_lt_succ hk
        have := ih (List.cons_ne_nil b rest) hwf' m hm
        rw [List.get_cons_succ, hlast]
        exact this

/-- Past the last word's end of a well-formed chunk, `findWordIdx` sticks to
the last word's index. -/
lemma findWordIdx_last (t : ℚ) (c : List WordTiming) (hne : c ≠ [])
    (hwf : wellFormedChunk c) (ht : (c.getLast hne).stop ≤ t) :
    findWordIdx t c = ((c.length - 1 : ℕ) : Int) := by
  have hscan : scanWord t c 0 = -1 := by
    refine scanWord_none t c ?_
    intro k hk hmatch
    have hle := wf_stop_le_last c hne hwf k hk
    have : t < t := lt_of_lt_of_le (lt_of_lt_of_le hmatch.2 hle) ht
    exact absurd this (lt_irrefl t)
  cases c with
  | nil => exact absurd rfl hne
  | cons w ws =>
    unfold findWordIdx
    dsimp only
    rw [if_pos ⟨hscan, ht⟩]

/-- In a gap-free chunk every time between the first word's start and the
last word's end is inside some word. -/
lemma exists_match_of_contiguous (t : ℚ) :
    ∀ (c : List WordTiming) (hne : c ≠ []), contiguousChunk c →
      (c.head hne).start ≤ t → t < (c.getLast hne).stop →
      ∃ k, ∃ hk : k < c.length,
        (c.get ⟨k, hk⟩).start ≤ t ∧ t < (c.get ⟨k, hk⟩).stop := by
  intro c
  induction c with
  | nil => intro hne; exact absurd rfl hne
  | cons a tail ih =>
    intro hne hcont hhead hlast
    cases tail with
    | nil =>
      exact ⟨0, Nat.succ_pos 0, by simpa using hhead, by simpa using hlast⟩
    | cons b rest =>
      by_cases hstop : t < a.stop
      · exact ⟨0, Nat.succ_pos _, by simpa using hhead, hstop⟩
      · push_neg at hstop
        have hchain := List.chain'_cons.mp hcont
        have hhead' : ((b :: rest).head (List.cons_ne_nil b rest)).start ≤ t :=
          le_trans hchain.1 hstop
        have hlast' : t < ((b :: rest).getLast (List.cons_ne_nil b rest)).stop := by
          have hL : (a :: b :: rest).getLast hne =
              (b :: rest).getLast (List.cons_ne_nil b rest) :=
            List.getLast_cons (List.cons_ne_nil b rest)
          rw [hL] at hlast
          exact hlast
        obtain ⟨k, hk, h1, h2⟩ :=
          ih (List.cons_ne_nil b rest) hchain.2 hhead' hlast'
        refine ⟨k + 1, Nat.succ_lt_succ hk, ?_, ?_⟩
        · rw [List.get_cons_succ]
          exact h1
        · rw [List.get_cons_succ]
          exact h2

/-- In a nonempty gap-free chunk, once the first word has started the active
word never computes to `-1`. -/
lemma findWordIdx_ne_neg_of_contiguous (t : ℚ) (c : List WordTiming)
    (hne : c ≠ []) (hcont : contiguousChunk c)
    (hhead : (c.head hne).start ≤ t) :
    findWordIdx t c ≠ -1 := by
  by_cases hlast : t < (c.getLast hne).stop
  · obtain ⟨k, hk, hmatch⟩ := exists_match_of_contiguous t c hne hcont hhead hlast
    have hscan : scanWord t c 0 ≠ -1 := by
      rcases scanWord_spec t c 0 with ⟨_, hnone⟩ | ⟨k', hk', heq, _, _⟩
      · exact absurd hmatch (hnone k hk)
      · rw [heq]
        omega
    rw [findWordIdx_of_scan t c hscan]
    exact hscan
  · push_neg at hlast
    by_cases hscan : scanWord t c 0 = -1
    · cases c with
      | nil => exact absurd rfl hne
      | cons w ws =>
        unfold findWordIdx
        dsimp only
        rw [if_pos ⟨hscan, hlast⟩]
        omega
    · rw [findWordIdx_of_scan t c hscan]
      exact hscan

/-- The stored chunk index after a tick is the scan result. -/
lemma updateTime_chunkIdx (s : PlayerState) :
    (updateTime s).1.activeChunkIndex =
      (findActiveChunk s.preRoll s.postRoll s.currentTime s.chunkRanges).1 := by
  rw [updateTime_state]

/-- When a tick stores a nonnegative chunk index `j`, the stored word index is
`findWordIdx` over chunk `j`. -/
lemma updateTime_wordIdx_of_chunk (s : PlayerState) (j : ℕ)
    (hj : (updateTime s).1.activeChunkIndex = (j : Int)) :
    (updateTime s).1.activeWordIndex =
      findWordIdx s.currentTime (s.chunks.getD j []) := by
  have hF : (findActiveChunk s.preRoll s.postRoll s.currentTime s.chunkRanges).1 =
      (j : Int) := by
    rw [updateTime_chunkIdx] at hj
    exact hj
  rw [updateTime_state]
  dsimp only
  rw [hF, if_pos (Int.natCast_nonneg j)]
  simp

/-- Fade weight is within `[0, 1]` for positive roll durations. -/
lemma fadeFor_mem (pre tl : ℚ) (hpre : 0 < pre) (htl : 0 < tl)
    (cr : ChunkRange) (t : ℚ) :
    0 ≤ fadeFor pre tl cr t ∧ fadeFor pre tl cr t ≤ 1 := by
  unfold fadeFor
  split_ifs with h1 h2
  · have hq : 0 ≤ (cr.start - t) / pre := div_nonneg (by linarith) hpre.le
    exact ⟨le_max_left 0 _, max_le (by norm_num) (by linarith)⟩
  · have hq : 0 ≤ (t - cr.stop) / tl := div_nonneg (by linarith) htl.le
    exact ⟨le_max_left 0 _, max_le (by norm_num) (by linarith)⟩
  · norm_num

/-- Tails are positive for a positive post-roll. -/
lemma tailFor_pos (n i : ℕ) (post : ℚ) (hpost : 0 < post) : 0 < tailFor n i post := by
  unfold tailFor
  split_ifs
  · exact hpost
  · norm_num

/-- C1: on every tick the position-to-state computation selects as active
chunk the first index whose extended window `[start_i - preRoll,
end_i + tail_i]` contains the current time, where the tail is `postRoll` for
every chunk but the last and the fixed `1.0` for the last; when no extended
window contains the time, both `activeChunkIndex` and `activeWordIndex` are
stored as `-1`. -/
theorem c1_first_window_wins (s : PlayerState) :
    ((∀ k, (hk : k < s.chunkRanges.length) →
        ¬ inExtWindow s.preRoll s.postRoll s.chunkRanges.length k
          (s.chunkRanges.get ⟨k, hk⟩) s.currentTime) →
      (updateTime s).1.activeChunkIndex = -1 ∧
        (updateTime s).1.activeWordIndex = -1)
    ∧ ∀ k, (hk : k < s.chunkRanges.length) →
        inExtWindow s.preRoll s.postRoll s.chunkRanges.length k
          (s.chunkRanges.get ⟨k, hk⟩) s.currentTime →
        (∀ m, (hm : m < k) →
          ¬ inExtWindow s.preRoll s.postRoll s.chunkRanges.length m
            (s.chunkRanges.get ⟨m, hm.trans hk⟩) s.currentTime) →
        (updateTime s).1.activeChunkIndex = (k : Int) := by
  constructor
  · intro h
    have hF := findActiveChunk_none s.preRoll s.postRoll s.currentTime s.chunkRanges h
    constructor
    · rw [updateTime_chunkIdx, hF]
    · rw [updateTime_state]
      dsimp only
      rw [hF]
      norm_num
  · intro k hk hwin hmin
    have hF := findActiveChunk_found s.preRoll s.postRoll s.currentTime s.chunkRanges
      k hk hwin hmin
    rw [updateTime_chunkIdx, hF]

/-- Witness for C1: at `t = 5` no window of the sample data matches and both
indices are `-1`; at `t = 1/4` the first window matches. -/
theorem c1_first_window_wins_witness :
    ((updateTime (sampleState 5)).1.activeChunkIndex = -1 ∧
      (updateTime (sampleState 5)).1.activeWordIndex = -1) ∧
    (updateTime (sampleState (1/4))).1.activeChunkIndex = 0 :=
  ⟨(c1_first_window_wins (sampleState 5)).1 (by decide),
    (c1_first_window_wins (sampleState (1/4))).2 0 (by decide) (by decide)
      (fun m hm => absurd hm (Nat.not_lt_zero m))⟩

/-- C2 (amended): when no chunk is active the active word is `-1`; within the
active chunk the computed active word is the unique word `w` with
`start_w ≤ t < end_w`; once `t` is at or past the last word's end of a
well-formed chunk the active word is the last word's index; and in a
gap-free (contiguous) chunk the active word never reverts to `-1` once
speech has started. -/
theorem c2_active_word_amended (s : PlayerState) :
    ((updateTime s).1.activeChunkIndex = -1 →
      (updateTime s).1.activeWordIndex = -1)
    ∧ (∀ j, (hj : j < s.chunks.length) →
        (updateTime s).1.activeChunkIndex = (j : Int) →
        ∀ w, (hw : w < (s.chunks.get ⟨j, hj⟩).length) →
          ((s.chunks.get ⟨j, hj⟩).get ⟨w, hw⟩).start ≤ s.currentTime →
          s.currentTime < ((s.chunks.get ⟨j, hj⟩).get ⟨w, hw⟩).stop →
          (∀ v, (hv : v < (s.chunks.get ⟨j, hj⟩).length) → v ≠ w →
            ¬ (((s.chunks.get ⟨j, hj⟩).get ⟨v, hv⟩).start ≤ s.currentTime ∧
               s.currentTime < ((s.chunks.get ⟨j, hj⟩).get ⟨v, hv⟩).stop)) →
          (updateTime s).1.activeWordIndex = (w : Int))
    ∧ (∀ j, (hj : j < s.chunks.length) →
        (updateTime s).1.activeChunkIndex = (j : Int) →
        ∀ hne : s.chunks.get ⟨j, hj⟩ ≠ [],
          wellFormedChunk (s.chunks.get ⟨j, hj⟩) →
          ((s.chunks.get ⟨j, hj⟩).getLast hne).stop ≤ s.currentTime →
          (updateTime s).1.activeWordIndex =
            (((s.chunks.get ⟨j, hj⟩).length - 1 : ℕ) : Int))
    ∧ (∀ j, (hj : j < s.chunks.length) →
        (updateTime s).1.activeChunkIndex = (j : Int) →
        ∀ hne : s.chunks.get ⟨j, hj⟩ ≠ [],
          contiguousChunk (s.chunks.get ⟨j, hj⟩) →
          ((s.chunks.get ⟨j, hj⟩).head hne).start ≤ s.currentTime →
          (updateTime s).1.activeWordIndex ≠ -1) := by
  refine ⟨?_, ?_, ?_, ?_⟩
  · intro h
    rw [updateTime_chunkIdx] at h
    rw [updateTime_state]
    dsimp only
    rw [h]
    norm_num
  · intro j hj hchunk w hw h1 h2 huniq
    rw [updateTime_wordIdx_of_chunk s j hchunk, List.getD_eq_get s.chunks [] hj]
    have hmin : ∀ m, (hm : m < w) →
        ¬ (((s.chunks.get ⟨j, hj⟩).get ⟨m, hm.trans hw⟩).start ≤ s.currentTime ∧
           s.currentTime < ((s.chunks.get ⟨j, hj⟩).get ⟨m, hm.trans hw⟩).stop) :=
      fun m hm => huniq m (hm.trans hw) (Nat.ne_of_lt hm)
    have hscan := scanWord_first s.currentTime (s.chunks.get ⟨j, hj⟩) w hw ⟨h1, h2⟩ hmin
    rw [findWordIdx_of_scan _ _ (by rw [hscan]; omega), hscan]
  · intro j hj hchunk hne hwf hlast
    rw [updateTime_wordIdx_of_chunk s j hchunk, List.getD_eq_get s.chunks [] hj]
    exact findWordIdx_last s.currentTime _ hne hwf hlast
  · intro j hj hchunk hne hcont hhead
    rw [updateTime_wordIdx_of_chunk s j hchunk, List.getD_eq_get s.chunks [] hj]
    exact findWordIdx_ne_neg_of_contiguous s.currentTime _ hne hcont hhead

/-- Counterexample to C2 as stated: over the gap chunk (words `[0, 1/2)` and
`[1, 3/2)`) the chunk is active and speech has started at both `t = 1/5` and
`t = 7/10`, the active word is `0` at the earlier time, yet at `t = 7/10`
(inside the inter-word gap) the active word reverts to `-1`. -/
theorem c2_counterexample :
    (updateTime (gapState (1/5))).1.activeChunkIndex = 0 ∧
    (updateTime (gapState (1/5))).1.activeWordIndex = 0 ∧
    (updateTime (gapState (7/10))).1.activeChunkIndex = 0 ∧
    (updateTime (gapState (7/10))).1.activeWordIndex = -1 ∧
    (gapChunk.get ⟨0, by decide⟩).start ≤ 1/5 ∧ ((1:ℚ)/5 < 7/10) := by
  decide

/-- Witness for C2 (amended): over the contiguous sample chunk, at `t = 0.6`
the active word is word `1`; past the last word's end (`t = 1.1`, still inside
the tail window) the active word sticks to the last index `1`. -/
theorem c2_active_word_amended_witness :
    (updateTime (sampleState (3/5))).1.activeWordIndex = 1 ∧
    (updateTime (sampleState (11/10))).1.activeWordIndex = 1 ∧
    (updateTime (sampleState (3/5))).1.activeWordIndex ≠ -1 :=
  ⟨(c2_active_word_amended (sampleState (3/5))).2.1 0 (by decide) (by decide)
      1 (by decide) (by decide) (by decide) (by decide),
    by
      have h := (c2_active_word_amended (sampleState (11/10))).2.2.1 0 (by decide)
        (by decide) (by decide) (by decide) (by decide)
      simpa using h,
    (c2_active_word_amended (sampleState (3/5))).2.2.2 0 (by decide) (by decide)
      (by decide) (by decide) (by decide)⟩

/-- C3: for the chunk selected as active (whose extended window contains the
time), the fade weight lies in `[0,1]`; it is exactly `1` for
`start ≤ t ≤ end`, equals `max 0 (1 - (start - t)/preRoll)` in the pre-roll
region and `max 0 (1 - (t - end)/tail)` in the post-roll/tail region. -/
theorem c3_fade_weight (pre post t : ℚ) (ranges : List ChunkRange)
    (hpre : 0 < pre) (hpost : 0 < post) (k : ℕ) (hk : k < ranges.length)
    (hsel : (findActiveChunk pre post t ranges).1 = (k : Int))
    (hcr : (ranges.get ⟨k, hk⟩).start ≤ (ranges.get ⟨k, hk⟩).stop) :
    0 ≤ (findActiveChunk pre post t ranges).2 ∧
    (findActiveChunk pre post t ranges).2 ≤ 1 ∧
    ((ranges.get ⟨k, hk⟩).start ≤ t → t ≤ (ranges.get ⟨k, hk⟩).stop →
      (findActiveChunk pre post t ranges).2 = 1) ∧
    (t < (ranges.get ⟨k, hk⟩).start →
      (findActiveChunk pre post t ranges).2 =
        max 0 (1 - ((ranges.get ⟨k, hk⟩).start - t) / pre)) ∧
    ((ranges.get ⟨k, hk⟩).stop < t →
      (findActiveChunk pre post t ranges).2 =
        max 0 (1 - (t - (ranges.get ⟨k, hk⟩).stop) / tailFor ranges.length k post)) := by
  rcases findActiveChunk_cases pre post t ranges with hneg | ⟨k', hk', hfst, hwin, hsnd⟩
  · rw [hneg] at hsel
    omega
  · have hkk : k' = k := by
      rw [hfst] at hsel
      exact_mod_cast hsel
    subst hkk
    have hsnd' : (findActiveChunk pre post t ranges).2 =
        fadeFor pre (tailFor ranges.length k' post) (ranges.get ⟨k', hk⟩) t := hsnd
    have htl : 0 < tailFor ranges.length k' post := tailFor_pos _ _ _ hpost
    have hmem := fadeFor_mem pre (tailFor ranges.length k' post) hpre htl
      (ranges.get ⟨k', hk⟩) t
    rw [hsnd']
    refine ⟨hmem.1, hmem.2, ?_, ?_, ?_⟩
    · intro h1 h2
      unfold fadeFor
      rw [if_neg (not_lt.mpr h1), if_neg (not_lt.mpr h2)]
    · intro h
      unfold fadeFor
      rw [if_pos h]
    · intro h
      unfold fadeFor
      rw [if_neg (not_lt.mpr (le_trans hcr h.le)), if_pos h]

/-- Witness for C3: over the sample range `[0,1]` at `t = 1/4` the selected
chunk's fade is exactly `1`; at `t = -1/5` (pre-roll of `3/10`) it is `1/3`. -/
theorem c3_fade_weight_witness :
    (findActiveChunk (3/10) (3/10) (1/4) [chunkRangeOf sampleChunk]).2 = 1 ∧
    (findActiveChunk (3/10) (3/10) (-1/5) [chunkRangeOf sampleChunk]).2 =
      max 0 (1 - ((chunkRangeOf sampleChunk).start - (-1/5)) / (3/10)) :=
  ⟨(c3_fade_weight (3/10) (3/10) (1/4) [chunkRangeOf sampleChunk] (by norm_num)
      (by norm_num) 0 (by decide) (by decide) (by decide)).2.2.1
      (by decide) (by decide),
    (c3_fade_weight (3/10) (3/10) (-1/5) [chunkRangeOf sampleChunk] (by norm_num)
      (by norm_num) 0 (by decide) (by decide) (by decide)).2.2.2.1 (by decide)⟩

/-- C10: when no extended window contains the time, the tick's `timeupdate`
event still carries `fadeAlpha = 1.0` (the default is never lowered), with
chunk and word index `-1`. -/
theorem c10_out_of_window_fade (s : PlayerState)
    (h : ∀ k, (hk : k < s.chunkRanges.length) →
      ¬ inExtWindow s.preRoll s.postRoll s.chunkRanges.length k
        (s.chunkRanges.get ⟨k, hk⟩) s.currentTime) :
    KEvent.timeupdate s.currentTime
        (if 0 < s.duration then s.currentTime / s.duration else 0) (-1) (-1) 1
      ∈ (updateTime s).2 ∧
    (findActiveChunk s.preRoll s.postRoll s.currentTime s.chunkRanges).2 = 1 := by
  have hF := findActiveChunk_none s.preRoll s.postRoll s.currentTime s.chunkRanges h
  constructor
  · rw [updateTime_events, hF]
    simp
  · rw [hF]

/-- Witness for C10: at `t = 5` the sample data has no matching window and the
emitted `timeupdate` carries fade `1`. -/
theorem c10_out_of_window_fade_witness :
    KEvent.timeupdate (sampleState 5).currentTime
        (if 0 < (sampleState 5).duration then
          (sampleState 5).currentTime / (sampleState 5).duration else 0) (-1) (-1) 1
      ∈ (updateTime (sampleState 5)).2 ∧
    (findActiveChunk (sampleState 5).preRoll (sampleState 5).postRoll
      (sampleState 5).currentTime (sampleState 5).chunkRanges).2 = 1 :=
  c10_out_of_window_fade (sampleState 5) (by decide)

/-- A tick modifies only the stored active indices. -/
lemma updateTime_preserves (s : PlayerState) :
    (updateTime s).1.chunks = s.chunks ∧
    (updateTime s).1.chunkRanges = s.chunkRanges ∧
    (updateTime s).1.duration = s.duration ∧
    (updateTime s).1.currentTime = s.currentTime ∧
    (updateTime s).1.preRoll = s.preRoll ∧
    (updateTime s).1.postRoll = s.postRoll := by
  rw [updateTime_state]
  exact ⟨rfl, rfl, rfl, rfl, rfl, rfl⟩

/-- C4: on every tick `chunkchange` fires iff the computed chunk index differs
from the previously stored one, `wordchange` fires iff the computed word index
changed, `timeupdate` fires unconditionally carrying
`(time, progress, chunkIndex, wordIndex, fadeAlpha)` with
`progress = t/duration` (0 when the duration is not positive); and a subsequent
tick whose computed chunk index is unchanged fires no `chunkchange`. -/
theorem c4_tick_events (s : PlayerState) :
    ((updateTime s).2.any KEvent.isChunkChange = true ↔
      (findActiveChunk s.preRoll s.postRoll s.currentTime s.chunkRanges).1 ≠
        s.activeChunkIndex)
    ∧ ((updateTime s).2.any KEvent.isWordChange = true ↔
      (if 0 ≤ (findActiveChunk s.preRoll s.postRoll s.currentTime s.chunkRanges).1 then
        findWordIdx s.currentTime
          (s.chunks.getD
            (findActiveChunk s.preRoll s.postRoll s.currentTime s.chunkRanges).1.toNat [])
      else -1) ≠ s.activeWordIndex)
    ∧ KEvent.timeupdate s.currentTime
        (if 0 < s.duration then s.currentTime / s.duration else 0)
        (findActiveChunk s.preRoll s.postRoll s.currentTime s.chunkRanges).1
        (if 0 ≤ (findActiveChunk s.preRoll s.postRoll s.currentTime s.chunkRanges).1 then
          findWordIdx s.currentTime
            (s.chunks.getD
              (findActiveChunk s.preRoll s.postRoll s.currentTime s.chunkRanges).1.toNat [])
        else -1)
        (findActiveChunk s.preRoll s.postRoll s.currentTime s.chunkRanges).2
      ∈ (updateTime s).2
    ∧ ∀ t₂ : ℚ,
        (findActiveChunk s.preRoll s.postRoll t₂ s.chunkRanges).1 =
          (findActiveChunk s.preRoll s.postRoll s.currentTime s.chunkRanges).1 →
        (updateTime { (updateTime s).1 with currentTime := t₂ }).2.any
          KEvent.isChunkChange = false := by
  refine ⟨?_, ?_, ?_, ?_⟩
  · rw [updateTime_events]
    split_ifs with h1 h2 h2 <;>
      simp_all [KEvent.isChunkChange, KEvent.isWordChange]
  · rw [updateTime_events]
    split_ifs with h1 h2 h2 <;>
      simp_all [KEvent.isChunkChange, KEvent.isWordChange]
  · rw [updateTime_events]
    split_ifs <;> simp
  · intro t₂ hsame
    rw [updateTime_state s, updateTime_events]
    dsimp only
    rw [if_neg (not_ne_iff.mpr hsame)]
    split_ifs <;> simp [KEvent.isChunkChange]

/-- Witness for C4: from the sample state at `t = 1/4` a second tick at
`t = 3/10` computes the same chunk index and fires no `chunkchange`. -/
theorem c4_tick_events_witness :
    (updateTime { (updateTime (sampleState (1/4))).1 with currentTime := 3/10 }).2.any
      KEvent.isChunkChange = false :=
  (c4_tick_events (sampleState (1/4))).2.2.2 (3/10) (by decide)

/-- C5: `seek` is total (the embedding returns for every rational input,
including `t < 0` and `t > duration`): it clamps the requested time to
`[0, duration]`, stores the clamped play position, and recomputes the active
chunk/word state in the same call, identically to a tick at the clamped
time. -/
theorem c5_seek_clamps (s : PlayerState) (time : ℚ) :
    (seek s time).1.currentTime = max 0 (min time s.duration)
    ∧ 0 ≤ (seek s time).1.currentTime
    ∧ (0 ≤ s.duration → (seek s time).1.currentTime ≤ s.duration)
    ∧ (seek s time).1 =
        (updateTime { s with currentTime := max 0 (min time s.duration) }).1
    ∧ (seek s time).1.activeChunkIndex =
        (findActiveChunk s.preRoll s.postRoll (max 0 (min time s.duration))
          s.chunkRanges).1 := by
  have hstate : (seek s time).1 =
      (updateTime { s with currentTime := max 0 (min time s.duration) }).1 := rfl
  have hct : (seek s time).1.currentTime = max 0 (min time s.duration) := by
    rw [hstate, updateTime_state]
  refine ⟨hct, ?_, ?_, hstate, ?_⟩
  · rw [hct]
    exact le_max_left 0 _
  · intro hd
    rw [hct]
    exact max_le hd (min_le_right time s.duration)
  · rw [hstate, updateTime_chunkIdx]

/-- Witness for C5: seeking the sample state (duration `2`) to `7` clamps to
`2`; seeking to `-1` clamps to `0`. -/
theorem c5_seek_clamps_witness :
    (seek (sampleState 0) 7).1.currentTime ≤ (sampleState 0).duration ∧
    (seek (sampleState 0) (-1)).1.currentTime = max 0 (min (-1) (sampleState 0).duration) :=
  ⟨(c5_seek_clamps (sampleState 0) 7).2.2.1 (by decide),
    (c5_seek_clamps (sampleState 0) (-1)).1⟩

/-- C6 (amended): `setTimestamps` derives the range `{0,0}` for every empty
chunk; a chunk whose range is `{0,0}` is never selected as active at any time
outside `[-preRoll, tail]` — but times inside that window (such as `t = 0`)
can select it. -/
theorem c6_empty_chunk_range (s : PlayerState) (chunks : List (List WordTiming)) :
    (chunkRangeOf [] = ⟨0, 0⟩ ∧
      (setTimestamps s chunks).1.chunkRanges = chunks.map chunkRangeOf)
    ∧ ∀ j, (hj : j < s.chunkRanges.length) →
        s.chunkRanges.get ⟨j, hj⟩ = ⟨0, 0⟩ →
        (s.currentTime < 0 - s.preRoll ∨
          0 + tailFor s.chunkRanges.length j s.postRoll < s.currentTime) →
        (updateTime s).1.activeChunkIndex ≠ (j : Int) := by
  refine ⟨⟨rfl, rfl⟩, ?_⟩
  intro j hj hrange hout
  rw [updateTime_chunkIdx]
  rcases findActiveChunk_cases s.preRoll s.postRoll s.currentTime s.chunkRanges with
    hneg | ⟨k, hk, hfst, hwin, _⟩
  · rw [hneg]
    omega
  · rw [hfst]
    intro hkj
    have hkj' : k = j := by exact_mod_cast hkj
    subst hkj'
    have hget : s.chunkRanges.get ⟨k, hk⟩ = ⟨0, 0⟩ := hrange
    unfold inExtWindow at hwin
    rw [hget] at hwin
    dsimp only at hwin
    rcases hout with h | h
    · linarith [hwin.1]
    · linarith [hwin.2]

/-- Counterexample to C6 as stated: over a single empty chunk (derived range
`{0,0}`) the real time `t = 0` selects the empty chunk as active. -/
theorem c6_counterexample :
    (emptyChunkState 0).chunks = [[]] ∧
    (emptyChunkState 0).chunkRanges = [⟨0, 0⟩] ∧
    (updateTime (emptyChunkState 0)).1.activeChunkIndex = 0 := by
  decide

/-- Witness for C6 (amended): at `t = 2`, outside the empty chunk's window
`[-3/10, 1]`, the empty chunk is not selected. -/
theorem c6_empty_chunk_range_witness :
    (updateTime (emptyChunkState 2)).1.activeChunkIndex ≠ ((0 : ℕ) : Int) ∧
    chunkRangeOf [] = ⟨0, 0⟩ :=
  ⟨(c6_empty_chunk_range (emptyChunkState 2) []).2 0 (by decide) (by decide)
      (by decide),
    (c6_empty_chunk_range (emptyChunkState 2) []).1.1⟩

/-- Membership in the inner word loop's output: exactly the matching words,
with absolute word indices offset by `wi0`. -/
lemma collectWords_spec (q : List Char) (ci : ℕ) :
    ∀ (c : List WordTiming) (wi0 : ℕ) (m : SearchMatch),
      m ∈ collectWords q ci c wi0 ↔
        ∃ k, ∃ hk : k < c.length,
          m = ⟨ci, wi0 + k, (c.get ⟨k, hk⟩).start⟩ ∧
          hasSub q (toLowerStr (c.get ⟨k, hk⟩).word) = true := by
  intro c
  induction c with
  | nil =>
    intro wi0 m
    simp [collectWords]
  | cons w ws ih =>
    intro wi0 m
    unfold collectWords
    rw [List.mem_append]
    constructor
    · intro h
      rcases h with h | h
      · by_cases hq : hasSub q (toLowerStr w.word) = true
        · rw [if_pos hq] at h
          rcases List.mem_singleton.mp h with rfl
          exact ⟨0, Nat.succ_pos ws.length, by simp, hq⟩
        · rw [if_neg hq] at h
          exact absurd h (List.not_mem_nil m)
      · rcases (ih (wi0 + 1) m).mp h with ⟨k, hk, hm, hq⟩
        refine ⟨k + 1, Nat.succ_lt_succ hk, ?_, ?_⟩
        · rw [List.get_cons_succ]
          rw [hm]
          congr 1
          omega
        · rw [List.get_cons_succ]
          exact hq
    · rintro ⟨k, hk, hm, hq⟩
      cases k with
      | zero =>
        left
        rw [if_pos (by simpa using hq)]
        rw [List.mem_singleton]
        simpa using hm
      | succ k' =>
        right
        refine (ih (wi0 + 1) m).mpr ⟨k', Nat.lt_of_succ_lt_succ hk, ?_, ?_⟩
        · rw [List.get_cons_succ] at hm
          rw [hm]
          congr 1
          omega
        · rw [List.get_cons_succ] at hq
          exact hq

/-- Every match from the inner loop belongs to chunk `ci` with word index at
least `wi0`. -/
lemma collectWords_bounds (q : List Char) (ci : ℕ) (c : List WordTiming)
    (wi0 : ℕ) (m : SearchMatch) (h : m ∈ collectWords q ci c wi0) :
    m.chunkIndex = ci ∧ wi0 ≤ m.wordIndex := by
  rcases (collectWords_spec q ci c wi0 m).mp h with ⟨k, hk, hm, _⟩
  rw [hm]
  exact ⟨rfl, Nat.le_add_right wi0 k⟩

/-- The inner loop emits matches in strictly increasing word order. -/
lemma collectWords_pairwise (q : List Char) (ci : ℕ) :
    ∀ (c : List WordTiming) (wi0 : ℕ),
      (collectWords q ci c wi0).Pairwise (fun a b => a.wordIndex < b.wordIndex) := by
  intro c
  induction c with
  | nil =>
    intro wi0
    simp [collectWords]
  | cons w ws ih =>
    intro wi0
    unfold collectWords
    rw [List.pairwise_append]
    refine ⟨?_, ih (wi0 + 1), ?_⟩
    · split_ifs <;> simp
    · intro a ha b hb
      have hb' := (collectWords_bounds q ci ws (wi0 + 1) b hb).2
      have ha' : a.wordIndex = wi0 := by
        by_cases hq : hasSub q (toLowerStr w.word) = true
        · rw [if_pos hq, List.mem_singleton] at ha
          rw [ha]
        · rw [if_neg hq] at ha
          exact absurd ha (List.not_mem_nil a)
      omega

/-- Membership in the outer chunk loop's output: exactly the matching words
across all chunks, with chunk indices offset by `ci0`. -/
lemma collectMatches_spec (q : List Char) :
    ∀ (cs : List (List WordTiming)) (ci0 : ℕ) (m : SearchMatch),
      m ∈ collectMatches q cs ci0 ↔
        ∃ j, ∃ hj : j < cs.length, ∃ k, ∃ hk : k < (cs.get ⟨j, hj⟩).length,
          m = ⟨ci0 + j, k, ((cs.get ⟨j, hj⟩).get ⟨k, hk⟩).start⟩ ∧
          hasSub q (toLowerStr ((cs.get ⟨j, hj⟩).get ⟨k, hk⟩).word) = true := by
  intro cs
  induction cs with
  | nil =>
    intro ci0 m
    simp [collectMatches]
  | cons c cs ih =>
    intro ci0 m
    unfold collectMatches
    rw [List.mem_append]
    constructor
    · intro h
      rcases h with h | h
      · rcases (collectWords_spec q ci0 c 0 m).mp h with ⟨k, hk, hm, hq⟩
        exact ⟨0, Nat.succ_pos cs.length, k, hk, by simpa using hm, hq⟩
      · rcases (ih (ci0 + 1) m).mp h with ⟨j, hj, k, hk, hm, hq⟩
        refine ⟨j + 1, Nat.succ_lt_succ hj, k, hk, ?_, hq⟩
        have hidx : ci0 + (j + 1) = ci0 + 1 + j := by omega
        rw [hidx]
        exact hm
    · rintro ⟨j, hj, k, hk, hm, hq⟩
      cases j with
      | zero =>
        left
        exact (collectWords_spec q ci0 c 0 m).mpr ⟨k, hk, by simpa using hm, hq⟩
      | succ j' =>
        right
        have hj' : j' < cs.length := Nat.lt_of_succ_lt_succ hj
        have hk' : k < (cs.get ⟨j', hj'⟩).length := hk
        refine (ih (ci0 + 1) m).mpr ⟨j', hj', k, hk', ?_, hq⟩
        have hidx : ci0 + 1 + j' = ci0 + (j' + 1) := by omega
        rw [hidx]
        exact hm

/-- Every match from the outer loop has chunk index at least `ci0`. -/
lemma collectMatches_lb (q : List Char) (cs : List (List WordTiming)) (ci0 : ℕ)
    (m : SearchMatch) (h : m ∈ collectMatches q cs ci0) :
    ci0 ≤ m.chunkIndex := by
  rcases (collectMatches_spec q cs ci0 m).mp h with ⟨j, hj, k, hk, hm, _⟩
  rw [hm]
  exact Nat.le_add_right ci0 j

/-- The match list is strictly ordered by `(chunkIndex, wordIndex)`. -/
lemma collectMatches_pairwise (q : List Char) :
    ∀ (cs : List (List WordTiming)) (ci0 : ℕ),
      (collectMatches q cs ci0).Pairwise
        (fun a b => a.chunkIndex < b.chunkIndex ∨
          (a.chunkIndex = b.chunkIndex ∧ a.wordIndex < b.wordIndex)) := by
  intro cs
  induction cs with
  | nil =>
    intro ci0
    simp [collectMatches]
  | cons c cs ih =>
    intro ci0
    unfold collectMatches
    rw [List.pairwise_append]
    refine ⟨?_, ih (ci0 + 1), ?_⟩
    · have hp := collectWords_pairwise q ci0 c 0
      refine List.Pairwise.imp_of_mem ?_ hp
      intro a b ha hb hw
      right
      exact ⟨((collectWords_bounds q ci0 c 0 a ha).1).trans
        ((collectWords_bounds q ci0 c 0 b hb).1).symm, hw⟩
    · intro a ha b hb
      left
      have h1 := (collectWords_bounds q ci0 c 0 a ha).1
      have h2 := collectMatches_lb q cs (ci0 + 1) b hb
      omega

/-- `_goToSearchMatch` leaves the match list untouched. -/
lemma goToSearchMatch_matches (st : SearchState) (idx : ℕ) :
    (goToSearchMatch st idx).searchMatches = st.searchMatches := by
  unfold goToSearchMatch
  rcases h : st.searchMatches.get? idx with _ | m <;>
    simp [highlightSearchInChunk, clearSearchHighlights]

/-- `_goToSearchMatch` leaves the cursor untouched. -/
lemma goToSearchMatch_current (st : SearchState) (idx : ℕ) :
    (goToSearchMatch st idx).searchCurrent = st.searchCurrent := by
  unfold goToSearchMatch
  rcases h : st.searchMatches.get? idx with _ | m <;>
    simp [highlightSearchInChunk, clearSearchHighlights]

/-- The match list computed by `_runSearch`: empty for a blank query, else
the collected matches. -/
lemma runSearch_matches (chunks : List (List WordTiming)) (query : List Char)
    (st : SearchState) :
    (runSearch chunks query st).searchMatches =
      if toLowerStr (jsTrim query) = [] then []
      else collectMatches (toLowerStr (jsTrim query)) chunks 0 := by
  unfold runSearch
  dsimp only
  by_cases h : toLowerStr (jsTrim query) = []
  · rw [if_pos h, if_pos h]
  · rw [if_neg h, if_neg h]
    split_ifs with hlen
    · rw [goToSearchMatch_matches]
    · rfl

/-- C7: the search finds exactly the words whose (case-folded) text contains
the trimmed case-folded query as a substring, in strictly increasing
`(chunkIndex, wordIndex)` order; a blank query clears matches, cursor and all
highlight state; `navigate` is a no-op without matches and otherwise moves
the cursor with wrap-around in both directions (its new value is
`(current + direction) mod matchCount`). -/
theorem c7_search_query_and_nav (chunks : List (List WordTiming))
    (query : List Char) (st : SearchState) (d : Int) :
    (jsTrim query = [] → runSearch chunks query st = ⟨[], -1, []⟩)
    ∧ (∀ m : SearchMatch,
        m ∈ (runSearch chunks query st).searchMatches ↔
          (toLowerStr (jsTrim query) ≠ [] ∧
            ∃ j, ∃ hj : j < chunks.length, ∃ k,
              ∃ hk : k < (chunks.get ⟨j, hj⟩).length,
              m = ⟨j, k, ((chunks.get ⟨j, hj⟩).get ⟨k, hk⟩).start⟩ ∧
              hasSub (toLowerStr (jsTrim query))
                (toLowerStr ((chunks.get ⟨j, hj⟩).get ⟨k, hk⟩).word) = true))
    ∧ (runSearch chunks query st).searchMatches.Pairwise
        (fun a b => a.chunkIndex < b.chunkIndex ∨
          (a.chunkIndex = b.chunkIndex ∧ a.wordIndex < b.wordIndex))
    ∧ (st.searchMatches = [] → searchNav st d = st)
    ∧ (st.searchMatches ≠ [] → 0 ≤ st.searchCurrent →
        st.searchCurrent < (st.searchMatches.length : Int) → (d = 1 ∨ d = -1) →
        (searchNav st d).searchCurrent =
          (st.searchCurrent + d).emod (st.searchMatches.length : Int)) := by
  refine ⟨?_, ?_, ?_, ?_, ?_⟩
  · intro h
    unfold runSearch
    dsimp only
    rw [if_pos (by rw [h]; rfl)]
    simp [clearSearchHighlights]
  · intro m
    rw [runSearch_matches]
    by_cases h : toLowerStr (jsTrim query) = []
    · rw [if_pos h]
      simp [h]
    · rw [if_neg h]
      rw [collectMatches_spec]
      simp [h]
  · rw [runSearch_matches]
    split_ifs with h
    · exact List.Pairwise.nil
    · exact collectMatches_pairwise (toLowerStr (jsTrim query)) chunks 0
  · intro h
    unfold searchNav
    rw [if_pos (by rw [h]; rfl)]
  · intro hne h0 hlt hd
    unfold searchNav
    rw [if_neg (fun hlen => hne (List.length_eq_zero.mp hlen))]
    dsimp only
    rw [goToSearchMatch_current]
    dsimp only
    have hn : 0 < (st.searchMatches.length : Int) := by
      exact_mod_cast List.length_pos.mpr hne
    have harg : 0 ≤ st.searchCurrent + d + (st.searchMatches.length : Int) := by
      rcases hd with rfl | rfl <;> omega
    rw [Int.tmod_eq_emod harg (le_of_lt hn)]
    exact Int.add_emod_self

/-- Witness for C7: a blank query clears everything; `navigate` is a no-op on
an empty match list; with two matches and cursor `1`, `navigate(+1)` wraps to
`(1+1) mod 2 = 0`. -/
theorem c7_search_query_and_nav_witness :
    runSearch [sampleChunk, gapChunk] [' ', '\t'] ⟨[⟨0, 0, 0⟩], 0, [(0, 0)]⟩ =
      ⟨[], -1, []⟩ ∧
    searchNav ⟨[], 5, [(2, 3)]⟩ 1 = ⟨[], 5, [(2, 3)]⟩ ∧
    (searchNav ⟨[⟨0, 1, 1/2⟩, ⟨1, 0, 0⟩], 1, []⟩ 1).searchCurrent =
      ((1 : Int) + 1).emod ((2 : ℕ) : Int) :=
  ⟨(c7_search_query_and_nav [sampleChunk, gapChunk] [' ', '\t']
      ⟨[⟨0, 0, 0⟩], 0, [(0, 0)]⟩ 1).1 (by decide),
    (c7_search_query_and_nav [] [] ⟨[], 5, [(2, 3)]⟩ 1).2.2.2.1 rfl,
    (c7_search_query_and_nav [] [] ⟨[⟨0, 1, 1/2⟩, ⟨1, 0, 0⟩], 1, []⟩ 1).2.2.2.2
      (by decide) (by decide) (by decide) (Or.inl rfl)⟩

lemma setRange_length (lo hi flat : ℕ) :
    ∀ (l : List SpanTags) (i : ℕ), (setRange lo hi flat l i).length = l.length := by
  intro l
  induction l with
  | nil => intro i; rfl
  | cons tg rest ih =>
    intro i
    unfold setRange
    simp [ih (i + 1)]

lemma setBelow_length (flat : ℕ) :
    ∀ (l : List SpanTags) (i : ℕ), (setBelow flat l i).length = l.length := by
  intro l
  induction l with
  | nil => intro i; rfl
  | cons tg rest ih =>
    intro i
    unfold setBelow
    simp [ih (i + 1)]

lemma setRange_getD (lo hi flat : ℕ) (d : SpanTags) :
    ∀ (l : List SpanTags) (i0 j : ℕ),
      (setRange lo hi flat l i0).getD j d =
        if j < l.length ∧ lo ≤ i0 + j ∧ i0 + j ≤ hi then tagFor (i0 + j) flat
        else l.getD j d := by
  intro l
  induction l with
  | nil =>
    intro i0 j
    simp [setRange]
  | cons tg rest ih =>
    intro i0 j
    unfold setRange
    cases j with
    | zero =>
      by_cases h : lo ≤ i0 ∧ i0 ≤ hi
      · rw [if_pos h]
        simp only [List.getD_cons_zero, List.length_cons]
        rw [if_pos ⟨Nat.succ_pos rest.length, by simpa using h.1, by simpa using h.2⟩]
        simp
      · rw [if_neg h]
        simp only [List.getD_cons_zero, List.length_cons]
        rw [if_neg ?_]
        intro hc
        exact h ⟨by simpa using hc.2.1, by simpa using hc.2.2⟩
    | succ j' =>
      simp only [List.getD_cons_succ, List.length_cons]
      rw [ih (i0 + 1) j']
      have hidx : i0 + 1 + j' = i0 + (j' + 1) := by omega
      rw [hidx]
      by_cases h : j' < rest.length ∧ lo ≤ i0 + (j' + 1) ∧ i0 + (j' + 1) ≤ hi
      · rw [if_pos h, if_pos ⟨Nat.succ_lt_succ h.1, h.2.1, h.2.2⟩]
      · rw [if_neg h, if_neg ?_]
        intro hc
        exact h ⟨Nat.lt_of_succ_lt_succ hc.1, hc.2.1, hc.2.2⟩

lemma setBelow_getD (flat : ℕ) (d : SpanTags) :
    ∀ (l : List SpanTags) (i0 j : ℕ),
      (setBelow flat l i0).getD j d =
        if j < l.length ∧ i0 + j < flat then spokenTag else l.getD j d := by
  intro l
  induction l with
  | nil =>
    intro i0 j
    simp [setBelow]
  | cons tg rest ih =>
    intro i0 j
    unfold setBelow
    cases j with
    | zero =>
      by_cases h : i0 < flat
      · rw [if_pos h]
        simp only [List.getD_cons_zero, List.length_cons]
        rw [if_pos ⟨Nat.succ_pos rest.length, by simpa using h⟩]
      · rw [if_neg h]
        simp only [List.getD_cons_zero, List.length_cons]
        rw [if_neg ?_]
        intro hc
        exact h (by simpa using hc.2)
    | succ j' =>
      simp only [List.getD_cons_succ, List.length_cons]
      rw [ih (i0 + 1) j']
      have hidx : i0 + 1 + j' = i0 + (j' + 1) := by omega
      rw [hidx]
      by_cases h : j' < rest.length ∧ i0 + (j' + 1) < flat
      · rw [if_pos h, if_pos ⟨Nat.succ_lt_succ h.1, h.2⟩]
      · rw [if_neg h, if_neg ?_]
        intro hc
        exact h ⟨Nat.lt_of_succ_lt_succ hc.1, hc.2⟩

lemma offsetsOf_length : ∀ (chunks : List (List WordTiming)) (acc : ℕ),
    (offsetsOf chunks acc).length = chunks.length := by
  intro chunks
  induction chunks with
  | nil => intro acc; rfl
  | cons c cs ih =>
    intro acc
    unfold offsetsOf
    simp [ih (acc + c.length)]

/-- A valid flat index is below the total span count. -/
lemma offsetsOf_flat_lt :
    ∀ (chunks : List (List WordTiming)) (acc ci : ℕ), ci < chunks.length →
      ∀ wi, wi < (chunks.getD ci []).length →
      (offsetsOf chunks acc).getD ci 0 + wi < acc + totalWords chunks := by
  intro chunks
  induction chunks with
  | nil =>
    intro acc ci hci
    exact absurd hci (Nat.not_lt_zero ci)
  | cons c cs ih =>
    intro acc ci hci wi hwi
    unfold offsetsOf
    unfold totalWords
    cases ci with
    | zero =>
      simp only [List.getD_cons_zero] at hwi ⊢
      simp only [List.map_cons, List.sum_cons]
      omega
    | succ ci' =>
      simp only [List.getD_cons_succ] at hwi ⊢
      have := ih (acc + c.length) ci' (Nat.lt_of_succ_lt_succ hci) wi hwi
      unfold totalWords at this
      simp only [List.map_cons, List.sum_cons]
      omega

lemma tagFor_eq_of_lt_lt (i p f : ℕ) (h1 : i < p) (h2 : i < f) :
    tagFor i p = tagFor i f := by
  unfold tagFor
  rw [if_pos h1, if_pos h2]

lemma tagFor_eq_of_gt_gt (i p f : ℕ) (h1 : p < i) (h2 : f < i) :
    tagFor i p = tagFor i f := by
  unfold tagFor
  rw [if_neg (by omega), if_neg (by omega), if_neg (by omega), if_neg (by omega)]

/-- A valid tick preserves the teleprompter invariant and leaves the state
consistently tagged. -/
lemma telUpdateTime_good (chunks : List (List WordTiming)) (st : TelState)
    (hg : telGood chunks st) (time : ℚ) (ci wi : Int) (fade : ℚ)
    (hv : validCall chunks ci wi) :
    telConsistent (telUpdateTime st time ci wi fade) ∧
      telGood chunks (telUpdateTime st time ci wi fade) := by
  obtain ⟨hb, hoff, hlen, hdisj⟩ := hg
  obtain ⟨hci0, hcilt, hwi0, hwilt⟩ := hv
  have hofflen : st.chunkWordOffsets.length = chunks.length := by
    rw [hoff, offsetsOf_length]
  have hflatlt : st.chunkWordOffsets.getD ci.toNat 0 + wi.toNat < totalWords chunks := by
    have := offsetsOf_flat_lt chunks 0 ci.toNat hcilt wi.toNat hwilt
    rw [hoff]
    omega
  unfold telUpdateTime
  rw [if_neg (by simp [hb]; omega)]
  rw [if_neg (by rw [hofflen]; omega)]
  dsimp only
  by_cases hEq : ((st.chunkWordOffsets.getD ci.toNat 0 + wi.toNat : ℕ) : Int) =
      st.prevFlatIndex
  · rw [if_pos hEq]
    have hcons : telConsistent st := by
      rcases hdisj with ⟨hprev, _⟩ | hcons
      · rw [hprev] at hEq
        omega
      · exact hcons
    exact ⟨hcons, hb, hoff, hlen, Or.inr hcons⟩
  · rw [if_neg hEq]
    by_cases hprev : st.prevFlatIndex < 0
    · have hup : ∀ i, i < st.tags.length → st.tags.getD i upcomingTag = upcomingTag := by
        rcases hdisj with ⟨_, hup⟩ | hcons
        · exact hup
        · exact absurd hcons.1 (by omega)
      rw [if_pos hprev]
      simp only [if_pos hprev]
      have hcons : telConsistent
          { st with
            tags := setBelow (st.chunkWordOffsets.getD ci.toNat 0 + wi.toNat)
              (setRange
                (min 0 (st.chunkWordOffsets.getD ci.toNat 0 + wi.toNat))
                (max 0 (st.chunkWordOffsets.getD ci.toNat 0 + wi.toNat))
                (st.chunkWordOffsets.getD ci.toNat 0 + wi.toNat) st.tags 0) 0,
            prevFlatIndex :=
              ((st.chunkWordOffsets.getD ci.toNat 0 + wi.toNat : ℕ) : Int) } := by
        refine ⟨?_, ?_, ?_⟩
        · dsimp only
          exact Int.natCast_nonneg _
        · rw [setBelow_length, setRange_length]
          simp only [Int.toNat_natCast]
          omega
        · intro i hi
          rw [setBelow_length, setRange_length] at hi
          dsimp only
          rw [setBelow_getD, setRange_getD, setRange_length]
          simp only [Int.toNat_natCast, Nat.zero_add, Nat.min_eq_left (Nat.zero_le _),
            Nat.max_eq_right (Nat.zero_le _)]
          rcases Nat.lt_trichotomy i (st.chunkWordOffsets.getD ci.toNat 0 + wi.toNat)
            with hc | hc | hc
          · rw [if_pos ⟨hi, hc⟩]
            unfold tagFor
            rw [if_pos hc]
          · rw [if_neg (by omega), if_pos ⟨hi, by omega, by omega⟩]
          · rw [if_neg (by omega), if_neg (by omega)]
            rw [hup i hi]
            unfold tagFor
            rw [if_neg (by omega), if_neg (by omega)]
      refine ⟨hcons, hb, hoff, ?_, Or.inr hcons⟩
      dsimp only
      rw [setBelow_length, setRange_length]
      exact hlen
    · have hcons0 : telConsistent st := by
        rcases hdisj with ⟨hm, _⟩ | hcons
        · rw [hm] at hprev
          omega
        · exact hcons
      obtain ⟨hp0, hplt, htags⟩ := hcons0
      rw [if_neg hprev]
      simp only [if_neg hprev]
      have hcons : telConsistent
          { st with
            tags := setRange
              (min st.prevFlatIndex.toNat (st.chunkWordOffsets.getD ci.toNat 0 + wi.toNat))
              (max st.prevFlatIndex.toNat (st.chunkWordOffsets.getD ci.toNat 0 + wi.toNat))
              (st.chunkWordOffsets.getD ci.toNat 0 + wi.toNat) st.tags 0,
            prevFlatIndex :=
              ((st.chunkWordOffsets.getD ci.toNat 0 + wi.toNat : ℕ) : Int) } := by
        refine ⟨?_, ?_, ?_⟩
        · dsimp only
          exact Int.natCast_nonneg _
        · rw [setRange_length]
          simp only [Int.toNat_natCast]
          omega
        · intro i hi
          rw [setRange_length] at hi
          dsimp only
          rw [setRange_getD]
          simp only [Int.toNat_natCast, Nat.zero_add]
          by_cases hin :
              min st.prevFlatIndex.toNat (st.chunkWordOffsets.getD ci.toNat 0 + wi.toNat) ≤ i ∧
              i ≤ max st.prevFlatIndex.toNat (st.chunkWordOffsets.getD ci.toNat 0 + wi.toNat)
          · rw [if_pos ⟨hi, hin.1, hin.2⟩]
          · rw [if_neg (by intro hc; exact hin ⟨hc.2.1, hc.2.2⟩)]
            rw [htags i hi]
            rcases Nat.lt_or_ge i
                (min st.prevFlatIndex.toNat (st.chunkWordOffsets.getD ci.toNat 0 + wi.toNat))
              with hlo | hlo
            · exact tagFor_eq_of_lt_lt i _ _ (by omega) (by omega)
            · have hhi : max st.prevFlatIndex.toNat
                  (st.chunkWordOffsets.getD ci.toNat 0 + wi.toNat) < i := by omega
              exact tagFor_eq_of_gt_gt i _ _ (by omega) (by omega)
      refine ⟨hcons, hb, hoff, ?_, Or.inr hcons⟩
      dsimp only
      rw [setRange_length]
      exact hlen

/-- A nonempty sequence of valid ticks from a good state ends consistently
tagged. -/
lemma applyCalls_consistent (chunks : List (List WordTiming)) :
    ∀ (calls : List (ℚ × Int × Int × ℚ)) (st : TelState), telGood chunks st →
      (∀ c ∈ calls, validCall chunks c.2.1 c.2.2.1) → calls ≠ [] →
      telConsistent (applyCalls st calls) := by
  intro calls
  induction calls with
  | nil =>
    intro st _ _ hne
    exact absurd rfl hne
  | cons c cs ih =>
    intro st hg hv _
    have hstep := telUpdateTime_good chunks st hg c.1 c.2.1 c.2.2.1 c.2.2.2
      (hv c (List.mem_cons_self c cs))
    cases cs with
    | nil => exact hstep.1
    | cons c2 cs2 =>
      exact ih (telUpdateTime st c.1 c.2.1 c.2.2.1 c.2.2.2) hstep.2
        (fun x hx => hv x (List.mem_cons_of_mem c hx)) (List.cons_ne_nil c2 cs2)

/-- The state produced by `build` satisfies the invariant. -/
lemma telBuild_good (chunks : List (List WordTiming)) :
    telGood chunks (telBuild chunks) := by
  refine ⟨rfl, rfl, by simp [telBuild], Or.inl ⟨rfl, ?_⟩⟩
  intro i hi
  simp only [telBuild] at hi ⊢
  rw [List.getD_eq_get _ _ (by simpa using hi)]
  simp

/-- C8: after a build and any nonempty sequence of ticks with valid indices
(in particular seeking backward and then forward), the word tags are
consistent — exactly the spans below the stored flat index are `spoken`, the
one at it is `active`, every later span is `upcoming`, and no span carries
two of these classes; moreover a single tick rewrites only the inclusive
range between the previous and the new flat index. -/
theorem c8_teleprompter_consistent (chunks : List (List WordTiming))
    (calls : List (ℚ × Int × Int × ℚ)) :
    (calls ≠ [] → (∀ c ∈ calls, validCall chunks c.2.1 c.2.2.1) →
      ∃ f : ℕ,
        (applyCalls (telBuild chunks) calls).prevFlatIndex = (f : Int) ∧
        f < (applyCalls (telBuild chunks) calls).tags.length ∧
        ∀ i, i < (applyCalls (telBuild chunks) calls).tags.length →
          ((((applyCalls (telBuild chunks) calls).tags.getD i upcomingTag).spoken = true ↔
              i < f) ∧
           (((applyCalls (telBuild chunks) calls).tags.getD i upcomingTag).active = true ↔
              i = f) ∧
           (((applyCalls (telBuild chunks) calls).tags.getD i upcomingTag).upcoming = true ↔
              f < i)))
    ∧ (∀ (st : TelState) (time : ℚ) (ci wi : Int) (fade : ℚ) (i : ℕ),
        (i < min (if st.prevFlatIndex < 0 then 0 else st.prevFlatIndex.toNat)
            (st.chunkWordOffsets.getD ci.toNat 0 + wi.toNat) ∨
          max (if st.prevFlatIndex < 0 then 0 else st.prevFlatIndex.toNat)
            (st.chunkWordOffsets.getD ci.toNat 0 + wi.toNat) < i) →
        (telUpdateTime st time ci wi fade).tags.getD i upcomingTag =
          st.tags.getD i upcomingTag) := by
  constructor
  · intro hne hv
    have hcons := applyCalls_consistent chunks calls (telBuild chunks)
      (telBuild_good chunks) hv hne
    obtain ⟨hp0, hplt, htags⟩ := hcons
    refine ⟨(applyCalls (telBuild chunks) calls).prevFlatIndex.toNat, by omega, hplt, ?_⟩
    intro i hi
    rw [htags i hi]
    unfold tagFor
    split_ifs with h1 h2 <;>
      simp [spokenTag, activeTag, upcomingTag] <;> omega
  · intro st time ci wi fade i hout
    unfold telUpdateTime
    by_cases h1 : ¬ st.built = true ∨ ci < 0 ∨ wi < 0
    · rw [if_pos h1]
    · rw [if_neg h1]
      by_cases h2 : (st.chunkWordOffsets.length : Int) ≤ ci
      · rw [if_pos h2]
      · rw [if_neg h2]
        dsimp only
        by_cases h3 : ((st.chunkWordOffsets.getD ci.toNat 0 + wi.toNat : ℕ) : Int) =
            st.prevFlatIndex
        · rw [if_pos h3]
        · rw [if_neg h3]
          by_cases h4 : st.prevFlatIndex < 0
          · simp only [if_pos h4] at hout ⊢
            simp only [Nat.min_eq_left (Nat.zero_le _),
              Nat.max_eq_right (Nat.zero_le _)] at hout ⊢
            have hflat : st.chunkWordOffsets.getD ci.toNat 0 + wi.toNat < i := by
              omega
            rw [setBelow_getD, setRange_getD, setRange_length]
            rw [if_neg (by intro hc; omega), if_neg (by intro hc; omega)]
          · simp only [if_neg h4] at hout ⊢
            rw [setRange_getD]
            rw [if_neg (by intro hc; omega)]

/-- Witness for C8: building over two chunks (three words) and ticking
forward, backward, then forward past the earlier position leaves the tags
consistent; a tick from flat index 1 to 2 leaves span 0 untouched. -/
theorem c8_teleprompter_consistent_witness :
    (∃ f : ℕ,
        (applyCalls (telBuild telChunks) telCalls).prevFlatIndex = (f : Int) ∧
        f < (applyCalls (telBuild telChunks) telCalls).tags.length ∧
        ∀ i, i < (applyCalls (telBuild telChunks) telCalls).tags.length →
          ((((applyCalls (telBuild telChunks) telCalls).tags.getD i upcomingTag).spoken = true ↔
              i < f) ∧
           (((applyCalls (telBuild telChunks) telCalls).tags.getD i upcomingTag).active = true ↔
              i = f) ∧
           (((applyCalls (telBuild telChunks) telCalls).tags.getD i upcomingTag).upcoming = true ↔
              f < i))) ∧
    (telUpdateTime (applyCalls (telBuild telChunks) [(1, 0, 1, 1)]) 2 1 0 1).tags.getD
        0 upcomingTag =
      (applyCalls (telBuild telChunks) [(1, 0, 1, 1)]).tags.getD 0 upcomingTag :=
  ⟨(c8_teleprompter_consistent telChunks telCalls).1 (List.cons_ne_nil _ _) (by decide),
    (c8_teleprompter_consistent telChunks telCalls).2
      (applyCalls (telBuild telChunks) [(1, 0, 1, 1)]) 2 1 0 1 0 (Or.inl (by decide))⟩

/-- C9 (amended): `showChunk` is a complete no-op when the requested index is
already shown; an out-of-range index clears the view (container emptied,
spans dropped, shown index reset to `-1`); and while a transition is in
progress an animated `showChunk` with a chunk already shown performs no
render and starts no new transition but still updates the stored current
chunk index (the rest of the state is unchanged). -/
theorem c9_showchunk_guard (s : RState) (i : Int) (animate : Bool) :
    (i = s.currentChunkIndex → showChunk s i animate = s)
    ∧ (i ≠ s.currentChunkIndex → (i < 0 ∨ (s.chunks.length : Int) ≤ i) →
        (showChunk s i animate).containerEmpty = true ∧
        (showChunk s i animate).wordSpans = [] ∧
        (showChunk s i animate).currentChunkIndex = -1)
    ∧ (s.transitioning = true → i ≠ s.currentChunkIndex → 0 ≤ i →
        i < (s.chunks.length : Int) → 0 ≤ s.currentChunkIndex →
        showChunk s i true = { s with currentChunkIndex := i }) := by
  refine ⟨?_, ?_, ?_⟩
  · intro h
    unfold showChunk
    rw [if_pos h]
  · intro h hrange
    unfold showChunk
    rw [if_neg h, if_pos hrange]
    exact ⟨rfl, rfl, rfl⟩
  · intro htr h h0 hlt hprev
    unfold showChunk
    rw [if_neg h, if_neg (by omega)]
    dsimp only
    rw [if_pos ⟨rfl, hprev⟩]
    unfold transitionChunk
    rw [if_pos htr]

/-- Counterexample to C9 as stated: render chunk 0, start an animated
transition to chunk 1 (guard flag up), then call `showChunk 0` mid-transition
— the call is not ignored: the stored current chunk index changes from 1 back
to 0, so the renderer's state is not left unchanged. -/
theorem c9_counterexample :
    (showChunk (showChunk sampleR 0 false) 1 true).transitioning = true ∧
    showChunk (showChunk (showChunk sampleR 0 false) 1 true) 0 true ≠
      showChunk (showChunk sampleR 0 false) 1 true ∧
    (showChunk (showChunk (showChunk sampleR 0 false) 1 true) 0 true).currentChunkIndex
        = 0 ∧
    (showChunk (showChunk sampleR 0 false) 1 true).currentChunkIndex = 1 := by
  decide

/-- Witness for C9 (amended): showing the already-shown index `-1` is a
no-op; an out-of-range index clears the rendered view; a mid-transition
animated call only rewrites the current chunk index. -/
theorem c9_showchunk_guard_witness :
    showChunk sampleR (-1) true = sampleR ∧
    (showChunk (showChunk sampleR 0 false) 5 true).containerEmpty = true ∧
    showChunk (showChunk (showChunk sampleR 0 false) 1 true) 0 true =
      { showChunk (showChunk sampleR 0 false) 1 true with currentChunkIndex := 0 } :=
  ⟨(c9_showchunk_guard sampleR (-1) true).1 (by decide),
    ((c9_showchunk_guard (showChunk sampleR 0 false) 5 true).2.1 (by decide)
      (by decide)).1,
    (c9_showchunk_guard (showChunk (showChunk sampleR 0 false) 1 true) 0 true).2.2
      (by decide) (by decide) (by decide) (by decide) (by decide)⟩

end BookKaraoke
